import Mathlib

/-!
# Verification of the incremental graph-layout engine (`src/FactorioGraph.vue`)

This file gives a shallow embedding of the layout-graph engine of
`FactorioGraph.vue`: the mutable collection of visual nodes (`GraphNode` objects
in the source), the `addRecipe` insertion algorithm (topology creation followed
by position assignment), the `removeRecipeNode` removal algorithm with its
cascade pruning, the render-loop edge-set computation, and the drag `move`
handler.

Encoding choices:
* JavaScript objects aliased from several places (the `nodes` array, the two
  name-keyed records, and the `leftNeighbors`/`rightNeighbors` arrays) are
  modelled arena-style: every created node receives a fresh integer `id`, the
  state stores the node records in sequence order, and all cross references
  (adjacency lists, name indices) store ids.  In every state reached through
  the public operations the ids in the sequence are pairwise distinct, so id
  equality coincides with JS reference equality.
* JS numbers are modelled as rationals (`ℚ`); the arithmetic performed by the
  engine (sums, differences, halving, min/max) is exact on the values involved.
* The `assert` calls and the runtime type errors of the source are modelled by
  `Option`/`RemoveResult` results: a result that carries no successor state
  means the operation halted.
* `Record<string, T>` objects are modelled as association lists with
  `lookupKey`, cons for assignment (every assignment in the source is guarded
  by an `undefined` check) and `eraseKey` for `delete`.
-/

namespace FG

/-- The discriminant of `GraphNode.content.kind` in the source:
`'thing' | 'recipe'`. -/
inductive NodeKind where
  | thing : NodeKind
  | recipe : NodeKind
deriving DecidableEq, Repr

/-- `GraphNode.content`: `{ kind, name, image }`. -/
structure NodeContent where
  kind : NodeKind
  name : String
  image : String
deriving DecidableEq, Repr

/-- A `GraphNode` of the source, with the object identity made explicit as
`id`.  `left`/`top` are the node position; the two adjacency arrays hold ids
of other nodes (references in the source). -/
structure VNode where
  id : Nat
  left : ℚ
  top : ℚ
  content : NodeContent
  leftNeighbors : List Nat
  rightNeighbors : List Nat
deriving DecidableEq, Repr

/-- A `Thing` of the domain graph (`Game.ts`): only the fields the layout
engine reads (`name`, `image`).  The `ingredientOf`/`productOf` back-reference
lists are consumed only by the `+`-button search, which is outside the claims
under verification. -/
structure Thing where
  name : String
  image : String
deriving DecidableEq, Repr

/-- One entry of `Recipe.ingredients` / `Recipe.products`: `{ thing: Thing }`. -/
structure Ingredient where
  thing : Thing
deriving DecidableEq, Repr

/-- A `Recipe` of the domain graph. -/
structure Recipe where
  name : String
  image : String
  ingredients : List Ingredient
  products : List Ingredient
deriving DecidableEq, Repr

/-- The domain graph handed to the component (`props.game`); the layout engine
only dereferences `game.recipes`. -/
structure Game where
  recipes : List (String × Recipe)
deriving DecidableEq, Repr

/-- Well-formedness of the domain graph, established by `makeGame` in
`Game.ts` (`assert(name === recipe.name)`): every recipe is stored under its
own name. -/
def GameWF (game : Game) : Prop :=
  ∀ p ∈ game.recipes, (p.2).name = p.1

/-- `Record` lookup: first binding wins (the engine never creates a second
binding for a live key). -/
def lookupKey {α : Type} : List (String × α) → String → Option α
  | [], _ => none
  | (k, v) :: rest, key => if k = key then some v else lookupKey rest key

/-- `delete record[key]`. -/
def eraseKey {α : Type} (l : List (String × α)) (key : String) : List (String × α) :=
  l.filter (fun p => p.1 ≠ key)

/-- The reactive state of the component: the `nodes` sequence plus the two
name-keyed indices `recipeNodes` and `thingNodes`.  `nextId` is the arena
counter producing fresh ids. -/
structure St where
  nextId : Nat
  nodes : List VNode
  recipeNodes : List (String × Nat)
  thingNodes : List (String × Nat)
deriving DecidableEq, Repr

/-- The initial (cleared) state. -/
def emptySt : St :=
  { nextId := 0, nodes := [], recipeNodes := [], thingNodes := [] }

/-- Mutate the node with the given id (a JS property write through an object
reference).  In states with pairwise-distinct ids this touches exactly one
entry. -/
def updNode (targetId : Nat) (f : VNode → VNode) (ns : List VNode) : List VNode :=
  ns.map (fun n => if n.id = targetId then f n else n)

/-- `node.rightNeighbors.push(other)`. -/
def pushRight (other : Nat) (n : VNode) : VNode :=
  { n with rightNeighbors := n.rightNeighbors ++ [other] }

/-- `node.leftNeighbors.push(other)`. -/
def pushLeft (other : Nat) (n : VNode) : VNode :=
  { n with leftNeighbors := n.leftNeighbors ++ [other] }

/-- The paired pushes for one ingredient (lines 94-95 of the source):
`ingredientNode.rightNeighbors.push(newRecipeNode)` then
`newRecipeNode.leftNeighbors.push(ingredientNode)`. -/
def linkIngredient (tid rid : Nat) (ns : List VNode) : List VNode :=
  updNode rid (pushLeft tid) (updNode tid (pushRight rid) ns)

/-- The paired pushes for one product (lines 117-118):
`productNode.leftNeighbors.push(newRecipeNode)` then
`newRecipeNode.rightNeighbors.push(productNode)`. -/
def linkProduct (tid rid : Nat) (ns : List VNode) : List VNode :=
  updNode rid (pushRight tid) (updNode tid (pushLeft rid) ns)

/-- A freshly pushed recipe node (lines 60-70): provisional position `(0,0)`,
empty adjacency. -/
def mkRecipeNode (rid : Nat) (recipe : Recipe) : VNode :=
  { id := rid, left := 0, top := 0,
    content := { kind := NodeKind.recipe, name := recipe.name, image := recipe.image },
    leftNeighbors := [], rightNeighbors := [] }

/-- A freshly pushed thing node (lines 79-89 / 102-112). -/
def mkThingNode (tid : Nat) (thing : Thing) : VNode :=
  { id := tid, left := 0, top := 0,
    content := { kind := NodeKind.thing, name := thing.name, image := thing.image },
    leftNeighbors := [], rightNeighbors := [] }

/-- One iteration of the ingredient loop of `addRecipe` (lines 75-96): find or
create the thing node, then perform the paired link.  The accumulator carries
the state and `nodesToPosition`. -/
def addIngredientStep (rid : Nat) (acc : St × List Nat) (ing : Ingredient) : St × List Nat :=
  let s := acc.1
  match lookupKey s.thingNodes ing.thing.name with
  | some tid => ({ s with nodes := linkIngredient tid rid s.nodes }, acc.2)
  | none =>
      let tid := s.nextId
      let idx := s.nodes.length
      ({ nextId := s.nextId + 1,
         nodes := linkIngredient tid rid (s.nodes ++ [mkThingNode tid ing.thing]),
         recipeNodes := s.recipeNodes,
         thingNodes := (ing.thing.name, tid) :: s.thingNodes },
       acc.2 ++ [idx])

/-- One iteration of the product loop of `addRecipe` (lines 98-119). -/
def addProductStep (rid : Nat) (acc : St × List Nat) (ing : Ingredient) : St × List Nat :=
  let s := acc.1
  match lookupKey s.thingNodes ing.thing.name with
  | some tid => ({ s with nodes := linkProduct tid rid s.nodes }, acc.2)
  | none =>
      let tid := s.nextId
      let idx := s.nodes.length
      ({ nextId := s.nextId + 1,
         nodes := linkProduct tid rid (s.nodes ++ [mkThingNode tid ing.thing]),
         recipeNodes := s.recipeNodes,
         thingNodes := (ing.thing.name, tid) :: s.thingNodes },
       acc.2 ++ [idx])

/-- The synchronous topology phase of `addRecipe` (lines 55-119): the
`assert(recipeNodes[recipeName] === undefined)` guard, the recipe-node
creation and registration, and the two find-or-create-and-link loops.
Returns the new state together with `nodesToPosition` (sequence indices of
the nodes created by this call, recipe node first).  `none` models the
assertion halting the call before any mutation; a `recipeName` absent from
`game.recipes` also halts before any mutation (`recipe.name` on `undefined`
throws while building the object literal of line 60). -/
def addRecipeTopo (game : Game) (s : St) (recipeName : String) : Option (St × List Nat) :=
  if (lookupKey s.recipeNodes recipeName).isSome then none
  else
    match lookupKey game.recipes recipeName with
    | none => none
    | some recipe =>
        let rid := s.nextId
        let ridx := s.nodes.length
        let s0 : St :=
          { nextId := s.nextId + 1,
            nodes := s.nodes ++ [mkRecipeNode rid recipe],
            recipeNodes := (recipe.name, rid) :: s.recipeNodes,
            thingNodes := s.thingNodes }
        let acc1 := recipe.ingredients.foldl (addIngredientStep rid) (s0, [ridx])
        let acc2 := recipe.products.foldl (addProductStep rid) acc1
        some acc2

/-- `nodes.indexOf(obj)` for an object held by reference: the position of the
node with the given id, `-1` when absent (JS `indexOf` convention). -/
def idxOfId (ns : List VNode) (targetId : Nat) : Int :=
  match ns.findIdx? (fun n => n.id = targetId) with
  | some k => (k : Int)
  | none => -1

/-- Array access at a possibly negative JS index: `none` models the
`TypeError` raised by dereferencing `undefined`. -/
def getAt? (ns : List VNode) (k : Int) : Option VNode :=
  if k < 0 then none else ns[k.toNat]?

/-- `Math.min(...xs)` on a list known to be nonempty at every use site (on the
empty list JS yields `Infinity`; the source only reads the value under a
nonemptiness guard, and this model returns an arbitrary rational there). -/
def listMinQ : List ℚ → ℚ
  | [] => 0
  | x :: xs => xs.foldl min x

/-- `Math.max(...xs)` on a list known to be nonempty at every use site. -/
def listMaxQ : List ℚ → ℚ
  | [] => 0
  | x :: xs => xs.foldl max x

/-- Lines 131-133: the sequence indices of `node.leftNeighbors` that are lower
than the index of the node being positioned. -/
def lowerLeftIdxs (ns : List VNode) (node : VNode) (i : Nat) : List Int :=
  (node.leftNeighbors.map (idxOfId ns)).filter (fun k => k < (i : Int))

/-- Lines 134-136: the lower sequence indices of `node.rightNeighbors`. -/
def lowerRightIdxs (ns : List VNode) (node : VNode) (i : Nat) : List Int :=
  (node.rightNeighbors.map (idxOfId ns)).filter (fun k => k < (i : Int))

/-- Line 139: `nodes[right].left` for each lower-indexed right neighbor
(`none` models the crash on a `-1` index). -/
def leftCoordsAt (ns : List VNode) (idxs : List Int) : Option (List ℚ) :=
  idxs.mapM (fun k => (getAt? ns k).map (fun n => n.left))

/-- Lines 140-144: `nodes[left].left + nodeElements[left].offsetWidth` for
each lower-indexed left neighbor. -/
def rightEdgesAt (sizes : Nat → ℚ × ℚ) (ns : List VNode) (idxs : List Int) : Option (List ℚ) :=
  idxs.mapM (fun k => (getAt? ns k).map (fun n => n.left + (sizes k.toNat).1))

/-- Lines 153-156: the tops of all lower-indexed neighbors. -/
def topsAt (ns : List VNode) (idxs : List Int) : Option (List ℚ) :=
  idxs.mapM (fun k => (getAt? ns k).map (fun n => n.top))

/-- One of the two sibling overlap-avoidance loops (lines 157-169 and
170-182): for each lower-indexed neighbor, for each of that neighbor's
neighbors on the side of the node being positioned whose index is also lower,
push the running top below that sibling's bottom edge plus 20. -/
def siblingFold (sizes : Nat → ℚ × ℚ) (ns : List VNode) (i : Nat)
    (idxs : List Int) (pick : VNode → List Nat) (t0 : ℚ) : Option ℚ :=
  idxs.foldlM
    (fun t k =>
      if k < (i : Int) then
        match getAt? ns k with
        | none => none
        | some nb =>
            (pick nb).foldlM
              (fun t sid =>
                let sIdx := idxOfId ns sid
                if sIdx < (i : Int) then
                  match getAt? ns sIdx with
                  | none => none
                  | some sib => some (max t (sib.top + (sizes sIdx.toNat).2 + 20))
                else some t)
              t
      else some t)
    t0

/-- Write the computed position into the node at sequence index `i`
(`node.left = ...; node.top = ...`). -/
def setPosAt (ns : List VNode) (i : Nat) (l t : ℚ) : List VNode :=
  match ns[i]? with
  | none => ns
  | some n => ns.set i { n with left := l, top := t }

/-- Line 127-129: the `nodeIndex === 0` special case — center horizontally in
the container, top at 20. -/
def positionRoot (width : ℚ) (sizes : Nat → ℚ × ℚ) (s : St) : St :=
  { s with nodes := setPosAt s.nodes 0 (width / 2 - (sizes 0).1 / 2) 20 }

/-- Lines 130-183: the general positioning rule for the node at sequence
index `i`.  `none` models the `assert` of line 137 (no lower-indexed
neighbor) or a crash on a dangling reference. -/
def positionGeneral (sizes : Nat → ℚ × ℚ) (s : St) (i : Nat) (node : VNode) : Option St :=
  let leftIdx := lowerLeftIdxs s.nodes node i
  let rightIdx := lowerRightIdxs s.nodes node i
  if leftIdx = [] ∧ rightIdx = [] then none
  else
    match leftCoordsAt s.nodes rightIdx, rightEdgesAt sizes s.nodes leftIdx with
    | some lefts, some rightEdges =>
        let leftmostLeft := listMinQ lefts
        let rightmostRight := listMaxQ rightEdges
        let w := (sizes i).1
        let newLeft :=
          if leftIdx = [] then leftmostLeft - w - 50
          else if rightIdx = [] then rightmostRight + 50
          else (leftmostLeft + rightmostRight) / 2 - w / 2
        match topsAt s.nodes (leftIdx ++ rightIdx) with
        | none => none
        | some tops =>
            match siblingFold sizes s.nodes i rightIdx (fun n => n.leftNeighbors) (listMaxQ tops) with
            | none => none
            | some t1 =>
                match siblingFold sizes s.nodes i leftIdx (fun n => n.rightNeighbors) t1 with
                | none => none
                | some t2 => some { s with nodes := setPosAt s.nodes i newLeft t2 }
    | _, _ => none

/-- One iteration of the positioning loop (lines 123-184).  The `none` on a
missing sequence entry models the `assert` of line 125. -/
def positionNode (width : ℚ) (sizes : Nat → ℚ × ℚ) (s : St) (i : Nat) : Option St :=
  match s.nodes[i]? with
  | none => none
  | some node =>
      if i = 0 then some (positionRoot width sizes s)
      else positionGeneral sizes s i node

/-- The whole position-assignment phase: the loop over `nodesToPosition`.
`sizes k` is the measured `(offsetWidth, offsetHeight)` of
`nodeElements.value[k]`, available after the `nextTick()` round-trip. -/
def assignPositions (width : ℚ) (sizes : Nat → ℚ × ℚ) (s : St) (toPos : List Nat) : Option St :=
  toPos.foldlM (fun s i => positionNode width sizes s i) s

/-- The complete `addRecipe` operation: synchronous topology creation, then
position assignment after the measurement round-trip. -/
def addRecipe (game : Game) (width : ℚ) (sizes : Nat → ℚ × ℚ) (s : St) (recipeName : String) :
    Option St :=
  match addRecipeTopo game s recipeName with
  | none => none
  | some (s1, toPos) => assignPositions width sizes s1 toPos

/-- `list.splice(list.indexOf(x), 1)` on an array of references: remove the
first occurrence of `x`; when `x` is absent, `indexOf` yields `-1` and
`splice(-1, 1)` removes the last element. -/
def jsSpliceRemove (l : List Nat) (x : Nat) : List Nat :=
  if x ∈ l then l.erase x else l.dropLast

/-- Lines 190-192: for every left neighbor of the removed node, splice the
removed node out of that neighbor's `rightNeighbors`. -/
def unlinkLeftLoop (x : Nat) (lns : List Nat) (ns : List VNode) : List VNode :=
  lns.foldl
    (fun ns lid =>
      updNode lid (fun n => { n with rightNeighbors := jsSpliceRemove n.rightNeighbors x }) ns)
    ns

/-- Lines 193-195: the symmetric loop over the right neighbors. -/
def unlinkRightLoop (x : Nat) (rns : List Nat) (ns : List VNode) : List VNode :=
  rns.foldl
    (fun ns rid =>
      updNode rid (fun n => { n with leftNeighbors := jsSpliceRemove n.leftNeighbors x }) ns)
    ns

/-- Lines 200-206, one iteration of the cascade loop: look the thing name up
in the index; if a node is found and both its adjacency lists are empty,
splice it out of the sequence and drop the index entry.  (When the index entry
dangles — no node with that id in the sequence — the JS object would still be
reachable through the record; that situation never arises in states produced
by the public operations, and this model leaves the state unchanged there.) -/
def cascadeStep (s : St) (thingName : String) : St :=
  match lookupKey s.thingNodes thingName with
  | none => s
  | some tid =>
      match s.nodes.find? (fun n => n.id = tid) with
      | none => s
      | some tn =>
          if tn.leftNeighbors = [] ∧ tn.rightNeighbors = [] then
            { s with
              nodes := s.nodes.eraseP (fun n => n.id = tid),
              thingNodes := eraseKey s.thingNodes thingName }
          else s

/-- The outcome of `removeRecipeNode`: the entry assertion fired (no
mutation), the cascade crashed on a missing `game.recipes` entry (the state at
the crash is retained), or the operation completed. -/
inductive RemoveResult where
  | assertFailed : RemoveResult
  | crashed : St → RemoveResult
  | ok : St → RemoveResult
deriving DecidableEq, Repr

/-- `removeRecipeNode(recipeNodeIndex)`, lines 187-207: assert the index is in
range, unlink both directions, splice the node out of the sequence, drop its
`recipeNodes` entry, then cascade over the ingredients and products of
`game.recipes[removed.content.name]` (a `TypeError` when that lookup yields
`undefined`). -/
def removeRecipeNode (game : Game) (s : St) (i : Nat) : RemoveResult :=
  match s.nodes[i]? with
  | none => RemoveResult.assertFailed
  | some rnode =>
      let ns1 := unlinkLeftLoop rnode.id rnode.leftNeighbors s.nodes
      let rnode1 := (ns1.find? (fun n => n.id = rnode.id)).getD rnode
      let ns2 := unlinkRightLoop rnode.id rnode1.rightNeighbors ns1
      let s1 : St :=
        { s with
          nodes := ns2.eraseIdx i,
          recipeNodes := eraseKey s.recipeNodes rnode.content.name }
      match lookupKey game.recipes rnode.content.name with
      | none => RemoveResult.crashed s1
      | some recipe =>
          RemoveResult.ok
            ((recipe.ingredients ++ recipe.products).foldl
              (fun s ing => cascadeStep s ing.thing.name) s1)

/-- The edge set computed by the render watch (lines 255-263).  The source
inserts a freshly allocated two-element array per discovered adjacency into a
`Set`; a JS `Set` compares objects by reference, so every insertion grows the
set and the result is exactly the insertion sequence, kept here in iteration
order. -/
def renderEdges (ns : List VNode) : List (Int × Int) :=
  ns.foldl
    (fun acc node =>
      acc ++ node.leftNeighbors.map (fun l => (idxOfId ns l, idxOfId ns node.id))
          ++ node.rightNeighbors.map (fun r => (idxOfId ns node.id, idxOfId ns r)))
    []

/-- The `Moving` drag session (lines 211-218): the captured node, its measured
element size, the node position and the pointer position at drag start. -/
structure Moving where
  nodeId : Nat
  elemWidth : ℚ
  elemHeight : ℚ
  initialX : ℚ
  initialY : ℚ
  startX : ℚ
  startY : ℚ
deriving DecidableEq, Repr

/-- The position computed by the `move` pointer handler (lines 234-245):
`min(max(0, initial + pointer delta), container size − element size)` on each
axis. -/
def moveTarget (m : Moving) (width height clientX clientY : ℚ) : ℚ × ℚ :=
  (min (max 0 (m.initialX + clientX - m.startX)) (width - m.elemWidth),
   min (max 0 (m.initialY + clientY - m.startY)) (height - m.elemHeight))

/-- The full `move` handler: write the clamped position into the dragged
node. -/
def move (m : Moving) (width height clientX clientY : ℚ) (s : St) : St :=
  { s with
    nodes := updNode m.nodeId
      (fun n => { n with
        left := (moveTarget m width height clientX clientY).1,
        top := (moveTarget m width height clientX clientY).2 }) s.nodes }

/-- The states reachable from the cleared state through completed public
operations invoked within their contracts: `addRecipe` runs to completion
(both phases), and `removeRecipeNode` is called — as the template only does —
on the index of a recipe-kind node and completes. -/
inductive Reachable (game : Game) : St → Prop where
  | empty : Reachable game emptySt
  | add {s s' : St} (width : ℚ) (sizes : Nat → ℚ × ℚ) (recipeName : String) :
      Reachable game s → addRecipe game width sizes s recipeName = some s' →
      Reachable game s'
  | remove {s s' : St} (i : Nat) (rnode : VNode) :
      Reachable game s → s.nodes[i]? = some rnode →
      rnode.content.kind = NodeKind.recipe →
      removeRecipeNode game s i = RemoveResult.ok s' →
      Reachable game s'

/-! ## Shared concrete scenario material

A tiny domain graph used by the concrete counterexamples and witnesses:
recipe `a` produces thing `x`; recipe `b` consumes `x` and produces `y`.
Every node element measures 100×40 and the container is 800 wide. -/

/-- Thing `x`. -/
def dThingX : Thing := { name := "x", image := "ix" }

/-- Thing `y`. -/
def dThingY : Thing := { name := "y", image := "iy" }

/-- Recipe `a`: no ingredients, product `x`. -/
def recipeA : Recipe := { name := "a", image := "ia", ingredients := [], products := [⟨dThingX⟩] }

/-- Recipe `b`: ingredient `x`, product `y`. -/
def recipeB : Recipe := { name := "b", image := "ib", ingredients := [⟨dThingX⟩], products := [⟨dThingY⟩] }

/-- The demo domain graph. -/
def gameAB : Game := { recipes := [("a", recipeA), ("b", recipeB)] }

/-- Constant measured element sizes. -/
def demoSizes : Nat → ℚ × ℚ := fun _ => (100, 40)

/-- State after `addRecipe("a")` on the empty graph. -/
def stA : St := (addRecipe gameAB 800 demoSizes emptySt "a").getD emptySt

/-- State after `addRecipe("a")` then `addRecipe("b")`. -/
def stAB : St := (addRecipe gameAB 800 demoSizes stA "b").getD emptySt

/-- Project the state out of a `RemoveResult` (for naming concrete outcomes). -/
def resultState : RemoveResult → St
  | RemoveResult.assertFailed => emptySt
  | RemoveResult.crashed t => t
  | RemoveResult.ok t => t

/-- State after additionally removing node 0 (recipe `a`); its former product
`x` — still fed into `b` — moves to sequence index 0, a thing-kind node. -/
def stThingFirst : St := resultState (removeRecipeNode gameAB stAB 0)

/-! ## C6 — drag clamping -/

/-- Claim C6: for every pointer move processed while dragging, the resulting
position equals (initial position + pointer delta) clamped to
`[0, container size − element size]` on each axis; a delta beyond either
bound lands exactly on the bound, and the result never leaves the interval.
(The hypotheses say the node fits inside the container, which makes the
clamping interval nonempty.) -/
theorem move_clamps (m : Moving) (width height clientX clientY : ℚ)
    (hw : m.elemWidth ≤ width) (hh : m.elemHeight ≤ height) :
    (moveTarget m width height clientX clientY).1
        = max 0 (min (m.initialX + clientX - m.startX) (width - m.elemWidth)) ∧
    (moveTarget m width height clientX clientY).2
        = max 0 (min (m.initialY + clientY - m.startY) (height - m.elemHeight)) ∧
    (m.initialX + clientX - m.startX ≤ 0 →
        (moveTarget m width height clientX clientY).1 = 0) ∧
    (width - m.elemWidth ≤ m.initialX + clientX - m.startX →
        (moveTarget m width height clientX clientY).1 = width - m.elemWidth) ∧
    (m.initialY + clientY - m.startY ≤ 0 →
        (moveTarget m width height clientX clientY).2 = 0) ∧
    (height - m.elemHeight ≤ m.initialY + clientY - m.startY →
        (moveTarget m width height clientX clientY).2 = height - m.elemHeight) ∧
    0 ≤ (moveTarget m width height clientX clientY).1 ∧
    (moveTarget m width height clientX clientY).1 ≤ width - m.elemWidth ∧
    0 ≤ (moveTarget m width height clientX clientY).2 ∧
    (moveTarget m width height clientX clientY).2 ≤ height - m.elemHeight := by
  have hu : (0 : ℚ) ≤ width - m.elemWidth := sub_nonneg.mpr hw
  have hv : (0 : ℚ) ≤ height - m.elemHeight := sub_nonneg.mpr hh
  unfold moveTarget
  refine ⟨?_, ?_, ?_, ?_, ?_, ?_, ?_, ?_, ?_, ?_⟩
  · rw [max_min_distrib_left, max_eq_right hu]
  · rw [max_min_distrib_left, max_eq_right hv]
  · intro h
    simp only [max_eq_left h, min_eq_left hu]
  · intro h
    have h0 : (0 : ℚ) ≤ m.initialX + clientX - m.startX := le_trans hu h
    rw [max_eq_right h0, min_eq_right h]
  · intro h
    simp only [max_eq_left h, min_eq_left hv]
  · intro h
    have h0 : (0 : ℚ) ≤ m.initialY + clientY - m.startY := le_trans hv h
    rw [max_eq_right h0, min_eq_right h]
  · exact le_min (le_max_left _ _) hu
  · exact min_le_right _ _
  · exact le_min (le_max_left _ _) hv
  · exact min_le_right _ _

/-- Concrete instance of `move_clamps`: element 30×20 in a 100×80 container —
the computed position stays inside the clamping rectangle. -/
theorem move_clamps_witness :
    0 ≤ (moveTarget ⟨0, 30, 20, 5, 5, 0, 0⟩ 100 80 500 (-500)).1 ∧
    (moveTarget ⟨0, 30, 20, 5, 5, 0, 0⟩ 100 80 500 (-500)).1 ≤ 100 - 30 ∧
    0 ≤ (moveTarget ⟨0, 30, 20, 5, 5, 0, 0⟩ 100 80 500 (-500)).2 ∧
    (moveTarget ⟨0, 30, 20, 5, 5, 0, 0⟩ 100 80 500 (-500)).2 ≤ 80 - 20 := by
  have h := move_clamps ⟨0, 30, 20, 5, 5, 0, 0⟩ 100 80 500 (-500) (by decide) (by decide)
  exact ⟨h.2.2.2.2.2.2.1, h.2.2.2.2.2.2.2.1, h.2.2.2.2.2.2.2.2.1, h.2.2.2.2.2.2.2.2.2⟩

/-! ## C1 — the render pass does not deduplicate edges -/

/-- Claim C1 (code bug, evaluated at the failing input): in the state after
`addRecipe("a")` alone — nodes `[recipe a, thing x]`, ids equal to indices,
with the single left-to-right adjacency `(0, 1)` recorded on both endpoints —
the edge list handed to the curve drawer contains the pair `(0, 1)` twice,
not once: the JS `Set` receives two distinct array objects, one from the
destination's `leftNeighbors` and one from the origin's `rightNeighbors`, and
deduplicates neither. -/
theorem renderEdges_duplicates_each_adjacency :
    (stA.nodes[1]?.map (fun n => n.leftNeighbors) = some [0]) ∧
    (stA.nodes[0]?.map (fun n => n.rightNeighbors) = some [1]) ∧
    renderEdges stA.nodes = [((0 : Int), (1 : Int)), ((0 : Int), (1 : Int))] := by
  decide

/-! ## C2 — precondition checks and atomicity -/

/-- The state left behind when `removeRecipeNode` is called on the thing-kind
node at index 0 of `stThingFirst`: the node is unlinked and spliced out
before the cascade crashes on the missing `game.recipes["x"]` entry. -/
def c2crashSt : St := resultState (removeRecipeNode gameAB stThingFirst 0)

/-- The constructor of a `RemoveResult`: 0 for the assertion, 1 for a crash,
2 for completion. -/
def resultTag : RemoveResult → Nat
  | RemoveResult.assertFailed => 0
  | RemoveResult.crashed _ => 1
  | RemoveResult.ok _ => 2

/-- Claim C2 is refuted at a concrete input: in `stThingFirst` the node at
index 0 is thing-kind, so the precondition of `removeRecipeNode` ("the index
refers to a transformation-kind node") is violated — yet no assertion fires:
the operation unlinks the node (recipe `b`, at index 0 afterwards, has lost
its left neighbor) and removes it (one node fewer), then crashes mid-cascade,
leaving the partially mutated graph `c2crashSt` behind. -/
theorem removeRecipeNode_mutates_despite_thing_kind :
    (stThingFirst.nodes[0]?.map (fun n => n.content.kind) = some NodeKind.thing) ∧
    resultTag (removeRecipeNode gameAB stThingFirst 0) = 1 ∧
    c2crashSt.nodes.length + 1 = stThingFirst.nodes.length ∧
    (stThingFirst.nodes[1]?.map (fun n => n.leftNeighbors) = some [1]) ∧
    (c2crashSt.nodes[0]?.map (fun n => n.leftNeighbors) = some []) := by
  decide

/-- Claim C2 as amended: `addRecipe` is atomic with respect to its
precondition check — when a node for the recipe name already exists the
assertion halts the call before any mutation (no successor state is
produced).  For `removeRecipeNode` the assertion checks only that the index
is in range: it fires, before any mutation, exactly when the index is out of
range, and an in-range index is never rejected — the transformation-kind part
of the stated precondition is not checked. -/
theorem mutating_ops_assert_before_mutation :
    (∀ (game : Game) (width : ℚ) (sizes : Nat → ℚ × ℚ) (s : St) (name : String),
        (lookupKey s.recipeNodes name).isSome →
        addRecipe game width sizes s name = none) ∧
    (∀ (game : Game) (s : St) (i : Nat), s.nodes[i]? = none →
        removeRecipeNode game s i = RemoveResult.assertFailed) ∧
    (∀ (game : Game) (s : St) (i : Nat) (n : VNode), s.nodes[i]? = some n →
        removeRecipeNode game s i ≠ RemoveResult.assertFailed) := by
  refine ⟨?_, ?_, ?_⟩
  · intro game width sizes s name h
    unfold addRecipe addRecipeTopo
    rw [if_pos h]
  · intro game s i h
    unfold removeRecipeNode
    rw [h]
  · intro game s i n h
    unfold removeRecipeNode
    rw [h]
    cases hl : lookupKey game.recipes n.content.name <;> simp [hl]

/-- Concrete instance of `mutating_ops_assert_before_mutation`: re-adding
recipe `a` over `stA` halts, removal at an out-of-range index halts, removal
at an in-range index does not. -/
theorem mutating_ops_assert_witness :
    addRecipe gameAB 800 demoSizes stA "a" = none ∧
    removeRecipeNode gameAB emptySt 0 = RemoveResult.assertFailed ∧
    removeRecipeNode gameAB stA 0 ≠ RemoveResult.assertFailed := by
  have h := mutating_ops_assert_before_mutation
  refine ⟨h.1 gameAB 800 demoSizes stA "a" (by decide),
          h.2.1 gameAB emptySt 0 (by decide),
          h.2.2 gameAB stA 0 ((stA.nodes[0]?).getD (mkRecipeNode 0 recipeA)) (by rfl)⟩

/-! ## C10 — the two name indices are independent -/

/-- A successful `lookupKey` exhibits a list entry. -/
theorem lookupKey_mem {α : Type} {l : List (String × α)} {k : String} {v : α}
    (h : lookupKey l k = some v) : (k, v) ∈ l := by
  induction l with
  | nil => exact absurd h (by simp [lookupKey])
  | cons p rest ih =>
      obtain ⟨k0, v0⟩ := p
      by_cases hk : k0 = k
      · subst hk
        simp [lookupKey] at h
        subst h
        exact List.mem_cons_self _ _
      · simp only [lookupKey, if_neg hk] at h
        exact List.mem_cons_of_mem _ (ih h)

/-- Membership extracted from an indexing fact. -/
theorem mem_of_getElemQ (l : List VNode) (i : Nat) (x : VNode)
    (h : l[i]? = some x) : x ∈ l := by
  obtain ⟨hlt, hget⟩ := List.getElem?_eq_some.mp h
  exact hget ▸ List.getElem_mem hlt

/-- Every node of the first list survives into the second with its identity
and content intact. -/
def keepsIdContent (ns ms : List VNode) : Prop :=
  ∀ n ∈ ns, ∃ p ∈ ms, p.id = n.id ∧ p.content = n.content

theorem keepsIdContent_refl (ns : List VNode) : keepsIdContent ns ns :=
  fun n hn => ⟨n, hn, rfl, rfl⟩

theorem keepsIdContent_trans {a b c : List VNode}
    (h1 : keepsIdContent a b) (h2 : keepsIdContent b c) : keepsIdContent a c := by
  intro n hn
  obtain ⟨p, hp, hid, hct⟩ := h1 n hn
  obtain ⟨q, hq, hid2, hct2⟩ := h2 p hp
  exact ⟨q, hq, hid2.trans hid, hct2.trans hct⟩

theorem keepsIdContent_updNode (i : Nat) (f : VNode → VNode) (ns : List VNode)
    (hf : ∀ m, (f m).id = m.id ∧ (f m).content = m.content) :
    keepsIdContent ns (updNode i f ns) := by
  intro n hn
  refine ⟨if n.id = i then f n else n, List.mem_map_of_mem _ hn, ?_, ?_⟩
  · by_cases h : n.id = i <;> simp [h, (hf n).1]
  · by_cases h : n.id = i <;> simp [h, (hf n).2]

theorem keepsIdContent_append (ns l : List VNode) : keepsIdContent ns (ns ++ l) :=
  fun n hn => ⟨n, List.mem_append_left _ hn, rfl, rfl⟩

theorem keepsIdContent_linkIngredient (tid rid : Nat) (ns : List VNode) :
    keepsIdContent ns (linkIngredient tid rid ns) :=
  keepsIdContent_trans
    (keepsIdContent_updNode tid (pushRight rid) ns (fun _ => ⟨rfl, rfl⟩))
    (keepsIdContent_updNode rid (pushLeft tid) _ (fun _ => ⟨rfl, rfl⟩))

theorem keepsIdContent_linkProduct (tid rid : Nat) (ns : List VNode) :
    keepsIdContent ns (linkProduct tid rid ns) :=
  keepsIdContent_trans
    (keepsIdContent_updNode tid (pushLeft rid) ns (fun _ => ⟨rfl, rfl⟩))
    (keepsIdContent_updNode rid (pushRight tid) _ (fun _ => ⟨rfl, rfl⟩))

theorem keepsIdContent_addIngredientStep (rid : Nat) (acc : St × List Nat) (ing : Ingredient) :
    keepsIdContent acc.1.nodes ((addIngredientStep rid acc ing).1).nodes := by
  unfold addIngredientStep
  dsimp only
  split
  · exact keepsIdContent_linkIngredient _ _ _
  · exact keepsIdContent_trans (keepsIdContent_append _ _)
      (keepsIdContent_linkIngredient _ _ _)

theorem keepsIdContent_addProductStep (rid : Nat) (acc : St × List Nat) (ing : Ingredient) :
    keepsIdContent acc.1.nodes ((addProductStep rid acc ing).1).nodes := by
  unfold addProductStep
  dsimp only
  split
  · exact keepsIdContent_linkProduct _ _ _
  · exact keepsIdContent_trans (keepsIdContent_append _ _)
      (keepsIdContent_linkProduct _ _ _)

theorem keepsIdContent_foldl {α : Type} (step : St × List Nat → α → St × List Nat)
    (hstep : ∀ acc x, keepsIdContent acc.1.nodes ((step acc x).1).nodes)
    (l : List α) (acc : St × List Nat) :
    keepsIdContent acc.1.nodes ((l.foldl step acc).1).nodes := by
  induction l generalizing acc with
  | nil => exact keepsIdContent_refl _
  | cons x xs ih => exact keepsIdContent_trans (hstep acc x) (ih (step acc x))

/-- The topology phase keeps every pre-existing node (id and content) and
ends with a recipe node for the added recipe, carrying the fresh id. -/
theorem addRecipeTopo_spec {game : Game} {s : St} {name : String} {s1 : St}
    {toPos : List Nat} (h : addRecipeTopo game s name = some (s1, toPos)) :
    keepsIdContent s.nodes s1.nodes ∧
    ∃ recipe, lookupKey game.recipes name = some recipe ∧
      ∃ q ∈ s1.nodes, q.id = s.nextId ∧ q.content.kind = NodeKind.recipe ∧
        q.content.name = recipe.name := by
  unfold addRecipeTopo at h
  by_cases hr : (lookupKey s.recipeNodes name).isSome
  · rw [if_pos hr] at h
    exact absurd h (by simp)
  · rw [if_neg hr] at h
    cases hg : lookupKey game.recipes name with
    | none => rw [hg] at h; exact absurd h (by simp)
    | some recipe =>
        rw [hg] at h
        simp only [Option.some.injEq] at h
        have hs1 : s1 = (recipe.products.foldl (addProductStep s.nextId)
            (recipe.ingredients.foldl (addIngredientStep s.nextId)
              ({ nextId := s.nextId + 1,
                 nodes := s.nodes ++ [mkRecipeNode s.nextId recipe],
                 recipeNodes := (recipe.name, s.nextId) :: s.recipeNodes,
                 thingNodes := s.thingNodes }, [s.nodes.length]))).1 := by
          rw [h]
        have hkeep0 : keepsIdContent (s.nodes ++ [mkRecipeNode s.nextId recipe]) s1.nodes := by
          rw [hs1]
          exact keepsIdContent_trans
            (keepsIdContent_foldl (addIngredientStep s.nextId)
              (keepsIdContent_addIngredientStep s.nextId) recipe.ingredients
              ({ nextId := s.nextId + 1,
                 nodes := s.nodes ++ [mkRecipeNode s.nextId recipe],
                 recipeNodes := (recipe.name, s.nextId) :: s.recipeNodes,
                 thingNodes := s.thingNodes }, [s.nodes.length]))
            (keepsIdContent_foldl (addProductStep s.nextId)
              (keepsIdContent_addProductStep s.nextId) recipe.products
              (recipe.ingredients.foldl (addIngredientStep s.nextId)
                ({ nextId := s.nextId + 1,
                   nodes := s.nodes ++ [mkRecipeNode s.nextId recipe],
                   recipeNodes := (recipe.name, s.nextId) :: s.recipeNodes,
                   thingNodes := s.thingNodes }, [s.nodes.length])))
        constructor
        · exact keepsIdContent_trans (keepsIdContent_append _ _) hkeep0
        · refine ⟨recipe, rfl, ?_⟩
          obtain ⟨q, hq, hid, hct⟩ := hkeep0 (mkRecipeNode s.nextId recipe)
            (List.mem_append_right _ (List.mem_singleton_self _))
          exact ⟨q, hq, hid, by rw [hct]; rfl, by rw [hct]; rfl⟩

/-- Claim C10: node uniqueness is keyed per kind, not globally per name —
the thing-name and recipe-name indices are independent.  When a thing node
named `name` is present but no recipe node of that name is, and the domain
graph has a recipe `name`, `addRecipe name` passes its precondition assertion
(which consults only the recipe index) and creates the recipe node, after
which a thing node and a recipe node of the same name coexist. -/
theorem addRecipe_indices_independent (game : Game) (s : St) (name : String)
    (tn : VNode) (hwf : GameWF game)
    (htn : tn ∈ s.nodes) (htk : tn.content.kind = NodeKind.thing)
    (htname : tn.content.name = name)
    (hrec : lookupKey s.recipeNodes name = none)
    (hgame : (lookupKey game.recipes name).isSome) :
    ∃ s1 toPos, addRecipeTopo game s name = some (s1, toPos) ∧
      (∃ p ∈ s1.nodes, p.id = tn.id ∧ p.content.kind = NodeKind.thing ∧
        p.content.name = name) ∧
      ∃ q ∈ s1.nodes, q.content.kind = NodeKind.recipe ∧ q.content.name = name := by
  obtain ⟨r, hr⟩ := Option.isSome_iff_exists.mp hgame
  have htopo : ∃ s1 toPos, addRecipeTopo game s name = some (s1, toPos) := by
    unfold addRecipeTopo
    rw [hrec, hr]
    exact ⟨_, _, rfl⟩
  obtain ⟨s1, toPos, heq⟩ := htopo
  obtain ⟨hkeep, r2, hr2, q, hq, _, hqk, hqn⟩ := addRecipeTopo_spec heq
  have hrr : r2 = r := by
    rw [hr] at hr2
    exact (Option.some.injEq _ _).mp hr2.symm
  have hrname : r.name = name := hwf (name, r) (lookupKey_mem hr)
  refine ⟨s1, toPos, heq, ?_, ⟨q, hq, hqk, by rw [hqn, hrr, hrname]⟩⟩
  obtain ⟨p, hp, hpid, hpct⟩ := hkeep tn htn
  exact ⟨p, hp, hpid, by rw [hpct]; exact htk, by rw [hpct]; exact htname⟩

/-- The name-collision demo: recipe `a` produces thing `x`, and the domain
graph also has a recipe named `x`. -/
def recipeXcol : Recipe := { name := "x", image := "ixr", ingredients := [⟨dThingX⟩], products := [] }

/-- Domain graph with a thing and a recipe both named `x`. -/
def gameCol : Game := { recipes := [("a", recipeA), ("x", recipeXcol)] }

/-- State after `addRecipe("a")` against `gameCol`: a thing node named `x`
exists (id 1), no recipe node named `x` does. -/
def stColA : St := (addRecipe gameCol 800 demoSizes emptySt "a").getD emptySt

/-- Concrete instance of `addRecipe_indices_independent`: adding recipe `x`
over `stColA` passes the assertion although a thing node named `x` exists. -/
theorem addRecipe_indices_independent_witness :
    lookupKey stColA.recipeNodes "x" = none ∧
    lookupKey stColA.thingNodes "x" = some 1 ∧
    (addRecipeTopo gameCol stColA "x").isSome := by
  refine ⟨by decide, by decide, ?_⟩
  obtain ⟨s1, toPos, heq, hrest⟩ :=
    addRecipe_indices_independent gameCol stColA "x"
      ((stColA.nodes[1]?).getD (mkRecipeNode 0 recipeA))
      (by intro p hp; fin_cases hp <;> rfl)
      (mem_of_getElemQ stColA.nodes 1 ((stColA.nodes[1]?).getD (mkRecipeNode 0 recipeA)) (by rfl))
      (by rfl) (by rfl) (by decide) (by decide)
  rw [heq]
  rfl

/-! ## Frame lemmas for the positioning phase -/

/-- Fold invariance: a property preserved by every step holds at the end. -/
theorem foldl_preserve {α β : Type} {P : β → Prop} (f : β → α → β) (l : List α) (b : β)
    (hb : P b) (hstep : ∀ b0 a, a ∈ l → P b0 → P (f b0 a)) : P (l.foldl f b) := by
  induction l generalizing b with
  | nil => exact hb
  | cons x xs ih =>
      exact ih (f b x) (hstep b x (List.mem_cons_self _ _) hb)
        (fun b0 a ha => hstep b0 a (List.mem_cons_of_mem _ ha))

theorem updNode_length (i : Nat) (f : VNode → VNode) (ns : List VNode) :
    (updNode i f ns).length = ns.length :=
  List.length_map _ _

theorem linkIngredient_length (tid rid : Nat) (ns : List VNode) :
    (linkIngredient tid rid ns).length = ns.length := by
  unfold linkIngredient
  rw [updNode_length, updNode_length]

theorem linkProduct_length (tid rid : Nat) (ns : List VNode) :
    (linkProduct tid rid ns).length = ns.length := by
  unfold linkProduct
  rw [updNode_length, updNode_length]

/-- Each ingredient step either links an existing node (sequence and
`nodesToPosition` unchanged in length) or creates one (both grow by one, the
new index recorded). -/
theorem addIngredientStep_cases (rid : Nat) (acc : St × List Nat) (ing : Ingredient) :
    ((addIngredientStep rid acc ing).1.nodes.length = acc.1.nodes.length ∧
      (addIngredientStep rid acc ing).2 = acc.2) ∨
    ((addIngredientStep rid acc ing).1.nodes.length = acc.1.nodes.length + 1 ∧
      (addIngredientStep rid acc ing).2 = acc.2 ++ [acc.1.nodes.length]) := by
  unfold addIngredientStep
  dsimp only
  split
  · exact Or.inl ⟨linkIngredient_length _ _ _, rfl⟩
  · refine Or.inr ⟨?_, rfl⟩
    rw [linkIngredient_length, List.length_append, List.length_singleton]

theorem addProductStep_cases (rid : Nat) (acc : St × List Nat) (ing : Ingredient) :
    ((addProductStep rid acc ing).1.nodes.length = acc.1.nodes.length ∧
      (addProductStep rid acc ing).2 = acc.2) ∨
    ((addProductStep rid acc ing).1.nodes.length = acc.1.nodes.length + 1 ∧
      (addProductStep rid acc ing).2 = acc.2 ++ [acc.1.nodes.length]) := by
  unfold addProductStep
  dsimp only
  split
  · exact Or.inl ⟨linkProduct_length _ _ _, rfl⟩
  · refine Or.inr ⟨?_, rfl⟩
    rw [linkProduct_length, List.length_append, List.length_singleton]

/-- The invariant carried along the two topology loops: `nodesToPosition` is
strictly increasing, starts with the recipe-node index, and stays within the
sequence bounds. -/
def TopoAcc (ridx : Nat) (acc : St × List Nat) : Prop :=
  (∃ rest, acc.2 = ridx :: rest) ∧
  List.Pairwise (· < ·) acc.2 ∧
  (∀ j ∈ acc.2, j < acc.1.nodes.length)

theorem TopoAcc_step {ridx : Nat} {acc acc2 : St × List Nat}
    (hc : (acc2.1.nodes.length = acc.1.nodes.length ∧ acc2.2 = acc.2) ∨
      (acc2.1.nodes.length = acc.1.nodes.length + 1 ∧
        acc2.2 = acc.2 ++ [acc.1.nodes.length]))
    (h : TopoAcc ridx acc) : TopoAcc ridx acc2 := by
  obtain ⟨⟨rest, hrest⟩, hpw, hbound⟩ := h
  rcases hc with ⟨hlen, hsame⟩ | ⟨hlen, happ⟩
  · exact ⟨⟨rest, by rw [hsame, hrest]⟩, by rw [hsame]; exact hpw,
      fun j hj => by rw [hlen]; exact hbound j (by rw [← hsame]; exact hj)⟩
  · refine ⟨⟨rest ++ [acc.1.nodes.length], by rw [happ, hrest]; rfl⟩, ?_, ?_⟩
    · rw [happ]
      exact List.pairwise_append.mpr ⟨hpw, List.pairwise_singleton _ _,
        fun a ha b hb => by rw [List.mem_singleton] at hb; subst hb; exact hbound a ha⟩
    · intro j hj
      rw [happ] at hj
      rw [hlen]
      rcases List.mem_append.mp hj with hj | hj
      · exact Nat.lt_succ_of_lt (hbound j hj)
      · rw [List.mem_singleton] at hj
        subst hj
        exact Nat.lt_succ_self _

/-- Facts about `nodesToPosition` produced by the topology phase: it starts
with the recipe-node index `s.nodes.length`, is strictly increasing, and all
its entries index into the enlarged sequence. -/
theorem addRecipeTopo_toPos_spec {game : Game} {s : St} {name : String} {s1 : St}
    {toPos : List Nat} (h : addRecipeTopo game s name = some (s1, toPos)) :
    (∃ rest, toPos = s.nodes.length :: rest) ∧
    List.Pairwise (· < ·) toPos ∧
    (∀ j ∈ toPos, j < s1.nodes.length) := by
  unfold addRecipeTopo at h
  by_cases hr : (lookupKey s.recipeNodes name).isSome
  · rw [if_pos hr] at h
    exact absurd h (by simp)
  · rw [if_neg hr] at h
    cases hg : lookupKey game.recipes name with
    | none => rw [hg] at h; exact absurd h (by simp)
    | some recipe =>
        rw [hg] at h
        simp only [Option.some.injEq] at h
        have hacc : TopoAcc s.nodes.length
            (recipe.products.foldl (addProductStep s.nextId)
              (recipe.ingredients.foldl (addIngredientStep s.nextId)
                ({ nextId := s.nextId + 1,
                   nodes := s.nodes ++ [mkRecipeNode s.nextId recipe],
                   recipeNodes := (recipe.name, s.nextId) :: s.recipeNodes,
                   thingNodes := s.thingNodes }, [s.nodes.length]))) := by
          have h0 : TopoAcc s.nodes.length
              ({ nextId := s.nextId + 1,
                 nodes := s.nodes ++ [mkRecipeNode s.nextId recipe],
                 recipeNodes := (recipe.name, s.nextId) :: s.recipeNodes,
                 thingNodes := s.thingNodes }, ([s.nodes.length] : List Nat)) := by
            refine ⟨⟨[], rfl⟩, List.pairwise_singleton _ _, ?_⟩
            intro j hj
            rw [List.mem_singleton] at hj
            subst hj
            simp
          have h1 := foldl_preserve (addIngredientStep s.nextId) recipe.ingredients _ h0
            (fun acc ing _ hP => TopoAcc_step (addIngredientStep_cases _ _ _) hP)
          exact foldl_preserve (addProductStep s.nextId) recipe.products _ h1
            (fun acc ing _ hP => TopoAcc_step (addProductStep_cases _ _ _) hP)
        rw [h] at hacc
        exact hacc

/-- `setPosAt` keeps the sequence length. -/
theorem setPosAt_length (ns : List VNode) (i : Nat) (l t : ℚ) :
    (setPosAt ns i l t).length = ns.length := by
  unfold setPosAt
  cases h : ns[i]?
  · rfl
  · exact List.length_set _ _ _

/-- `setPosAt` leaves every other sequence entry untouched. -/
theorem setPosAt_get_ne (ns : List VNode) (i : Nat) (l t : ℚ) (k : Nat) (hk : k ≠ i) :
    (setPosAt ns i l t)[k]? = ns[k]? := by
  unfold setPosAt
  cases h : ns[i]?
  · rfl
  · rw [List.getElem?_set_ne (Ne.symm hk)]

/-- `setPosAt` rewrites exactly the position of the targeted entry. -/
theorem setPosAt_get_self {ns : List VNode} {i : Nat} (l t : ℚ) {n : VNode}
    (h : ns[i]? = some n) :
    (setPosAt ns i l t)[i]? = some { n with left := l, top := t } := by
  unfold setPosAt
  rw [h]
  exact List.getElem?_set_self (List.getElem?_eq_some.mp h).1

/-- A successful `positionGeneral` only rewrites the position of entry `i`. -/
theorem positionGeneral_shape {sizes : Nat → ℚ × ℚ} {s : St} {i : Nat} {node : VNode}
    {s2 : St} (h : positionGeneral sizes s i node = some s2) :
    ∃ l t, s2 = { s with nodes := setPosAt s.nodes i l t } := by
  unfold positionGeneral at h
  dsimp only at h
  split at h
  · exact absurd h (by simp)
  · split at h
    · split at h
      · exact absurd h (by simp)
      · split at h
        · exact absurd h (by simp)
        · split at h
          · exact absurd h (by simp)
          · exact ⟨_, _, ((Option.some.injEq _ _).mp h).symm⟩
    · exact absurd h (by simp)

/-- A successful `positionNode` only rewrites the position of entry `i`. -/
theorem positionNode_shape {width : ℚ} {sizes : Nat → ℚ × ℚ} {s : St} {i : Nat}
    {s2 : St} (h : positionNode width sizes s i = some s2) :
    ∃ l t, s2 = { s with nodes := setPosAt s.nodes i l t } := by
  unfold positionNode at h
  split at h
  · exact absurd h (by simp)
  · split at h
    · refine ⟨width / 2 - (sizes 0).1 / 2, 20, ?_⟩
      have h2 := (Option.some.injEq _ _).mp h
      rename_i hi
      subst hi
      rw [← h2]
      rfl
    · exact positionGeneral_shape h

/-- The positioning loop leaves every entry whose index is not in
`nodesToPosition` untouched, and never changes the sequence length or the
non-geometry fields of the state. -/
theorem assignPositions_frame {width : ℚ} {sizes : Nat → ℚ × ℚ} {s : St}
    {toPos : List Nat} {s2 : St} (h : assignPositions width sizes s toPos = some s2) :
    s2.nextId = s.nextId ∧ s2.recipeNodes = s.recipeNodes ∧
    s2.thingNodes = s.thingNodes ∧ s2.nodes.length = s.nodes.length ∧
    ∀ k, k ∉ toPos → s2.nodes[k]? = s.nodes[k]? := by
  induction toPos generalizing s with
  | nil =>
      obtain rfl : s = s2 := (Option.some.injEq _ _).mp h
      exact ⟨rfl, rfl, rfl, rfl, fun k _ => rfl⟩
  | cons i rest ih =>
      unfold assignPositions at h
      rw [List.foldlM_cons] at h
      cases hstep : positionNode width sizes s i with
      | none => rw [hstep] at h; exact absurd h (by simp)
      | some s1 =>
          rw [hstep] at h
          obtain ⟨l, t, rfl⟩ := positionNode_shape hstep
          obtain ⟨h1, h2, h3, h4, h5⟩ := ih h
          refine ⟨h1, h2, h3, by rw [h4]; exact setPosAt_length _ _ _ _, ?_⟩
          intro k hk
          rw [h5 k (fun hmem => hk (List.mem_cons_of_mem _ hmem))]
          exact setPosAt_get_ne _ _ _ _ _ (fun hki => hk (hki ▸ List.mem_cons_self _ _))

/-! ## C7 — the first-node special case -/

/-- Claim C7 as amended: the `nodeIndex === 0` special case triggers exactly
when the insertion starts on an empty graph — the first insertion ever, or
any insertion after removals have emptied the graph again — and then places
the root at `(width/2 − rootWidth/2, 20)`.  For the root of an insertion into
a non-empty graph the special case is skipped and the root is positioned by
the general neighbor-based rule (`positionGeneral`). -/
theorem root_positioning_cases :
    (∀ (game : Game) (width : ℚ) (sizes : Nat → ℚ × ℚ) (s : St) (name : String) (s2 : St),
       s.nodes = [] → addRecipe game width sizes s name = some s2 →
       ∃ node, s2.nodes[0]? = some node ∧
         node.left = width / 2 - (sizes 0).1 / 2 ∧ node.top = 20) ∧
    (∀ (game : Game) (width : ℚ) (sizes : Nat → ℚ × ℚ) (s : St) (name : String)
       (s1 s2 : St) (toPos : List Nat),
       s.nodes ≠ [] → addRecipeTopo game s name = some (s1, toPos) →
       assignPositions width sizes s1 toPos = some s2 →
       toPos.head? = some s.nodes.length ∧ s.nodes.length ≠ 0 ∧
       ∃ node s3, s1.nodes[s.nodes.length]? = some node ∧
         positionGeneral sizes s1 s.nodes.length node = some s3 ∧
         s2.nodes[s.nodes.length]? = s3.nodes[s.nodes.length]?) := by
  constructor
  · intro game width sizes s name s2 hempty hadd
    cases htopo : addRecipeTopo game s name with
    | none =>
        unfold addRecipe at hadd
        rw [htopo] at hadd
        exact absurd hadd (by simp)
    | some p =>
        obtain ⟨s1, toPos⟩ := p
        have hadd2 : assignPositions width sizes s1 toPos = some s2 := by
          unfold addRecipe at hadd
          rw [htopo] at hadd
          exact hadd
        obtain ⟨⟨rest, hrest⟩, hpw, hbound⟩ := addRecipeTopo_toPos_spec htopo
        rw [hempty] at hrest
        simp only [List.length_nil] at hrest
        have h0mem : 0 ∈ toPos := by rw [hrest]; exact List.mem_cons_self _ _
        have hlt : 0 < s1.nodes.length := hbound 0 h0mem
        obtain ⟨node0, hnode0⟩ : ∃ n, s1.nodes[0]? = some n :=
          ⟨s1.nodes[0], List.getElem?_eq_getElem hlt⟩
        have hpn : positionNode width sizes s1 0 = some (positionRoot width sizes s1) := by
          unfold positionNode
          rw [hnode0]
          rfl
        have h0notin : (0 : Nat) ∉ rest := by
          intro hmem
          rw [hrest] at hpw
          exact absurd (List.rel_of_pairwise_cons hpw hmem) (by simp)
        rw [hrest] at hadd2
        unfold assignPositions at hadd2
        rw [List.foldlM_cons, hpn] at hadd2
        simp only [Option.bind_eq_bind, Option.some_bind] at hadd2
        obtain ⟨_, _, _, _, hframe⟩ := assignPositions_frame hadd2
        refine ⟨{ node0 with left := width / 2 - (sizes 0).1 / 2, top := 20 }, ?_, rfl, rfl⟩
        rw [hframe 0 h0notin]
        exact setPosAt_get_self _ _ hnode0
  · intro game width sizes s name s1 s2 toPos hne htopo hpos
    obtain ⟨⟨rest, hrest⟩, hpw, hbound⟩ := addRecipeTopo_toPos_spec htopo
    have hridx : s.nodes.length ≠ 0 := by
      intro hz
      exact hne (List.length_eq_zero.mp hz)
    have hmem : s.nodes.length ∈ toPos := by rw [hrest]; exact List.mem_cons_self _ _
    have hlt : s.nodes.length < s1.nodes.length := hbound _ hmem
    obtain ⟨node, hnode⟩ : ∃ n, s1.nodes[s.nodes.length]? = some n :=
      ⟨s1.nodes[s.nodes.length], List.getElem?_eq_getElem hlt⟩
    have hpn : positionNode width sizes s1 s.nodes.length
        = positionGeneral sizes s1 s.nodes.length node := by
      unfold positionNode
      rw [hnode]
      exact if_neg hridx
    have hnotin : s.nodes.length ∉ rest := by
      intro hmem2
      rw [hrest] at hpw
      exact absurd (List.rel_of_pairwise_cons hpw hmem2) (by simp)
    rw [hrest] at hpos
    unfold assignPositions at hpos
    rw [List.foldlM_cons, hpn] at hpos
    cases hgen : positionGeneral sizes s1 s.nodes.length node with
    | none =>
        rw [hgen] at hpos
        exact absurd hpos (by simp)
    | some s3 =>
        rw [hgen] at hpos
        simp only [Option.bind_eq_bind, Option.some_bind] at hpos
        obtain ⟨_, _, _, _, hframe⟩ := assignPositions_frame hpos
        exact ⟨by rw [hrest]; rfl, hridx, node, s3, hnode, hgen, hframe _ hnotin⟩

/-- Graph re-emptied by a removal: `addRecipe("a")` then remove node 0 —
the cascade also prunes thing `x`, leaving no nodes. -/
def stReEmptied : St := resultState (removeRecipeNode gameAB stA 0)

/-- A second insertion performed on the re-emptied graph. -/
def stSecondAdd : St := (addRecipe gameAB 800 demoSizes stReEmptied "b").getD emptySt

/-- The topology-phase output of that second insertion. -/
def c7topoPair : St × List Nat := (addRecipeTopo gameAB stReEmptied "b").getD (emptySt, [])

/-- Claim C7 is refuted at a concrete input: after `addRecipe("a")` and a
removal that empties the graph, a *later* insertion (`addRecipe("b")`)
positions its root transformation by the `nodeIndex === 0` special case —
top exactly 20, horizontally centered — although the claim says the special
case applies only to the very first node ever added; the general
neighbor-based rule, which the claim prescribes for later insertions, cannot
even apply here (it yields `none`: the root has no lower-indexed neighbor). -/
theorem later_insertion_takes_first_node_special_case :
    resultTag (removeRecipeNode gameAB stA 0) = 2 ∧
    stReEmptied.nodes = [] ∧
    (addRecipe gameAB 800 demoSizes stReEmptied "b").isSome ∧
    stSecondAdd.nodes[0]?.map (fun n => n.top) = some 20 ∧
    stSecondAdd.nodes[0]?.map (fun n => n.left) = some (800 / 2 - (demoSizes 0).1 / 2) ∧
    positionGeneral demoSizes c7topoPair.1 0
      ((c7topoPair.1.nodes[0]?).getD (mkRecipeNode 0 recipeA)) = none := by
  refine ⟨by decide, by decide, by rfl, by rfl, by rfl, by rfl⟩

/-- The topology-phase output of inserting `b` into the two-node `stA`. -/
def c7bTopoPair : St × List Nat := (addRecipeTopo gameAB stA "b").getD (emptySt, [])

/-- Concrete instance of `root_positioning_cases`: the first-ever insertion
puts its root at top 20, and inserting `b` into the non-empty `stA` gives the
root sequence index 2 (not 0). -/
theorem root_positioning_cases_witness :
    stA.nodes[0]?.map (fun n => n.top) = some 20 ∧
    c7bTopoPair.2.head? = some 2 := by
  constructor
  · obtain ⟨node, hget, hleft, htop⟩ :=
      root_positioning_cases.1 gameAB 800 demoSizes emptySt "a" stA rfl (by rfl)
    rw [hget, Option.map_some', htop]
  · obtain ⟨hhead, hrest⟩ :=
      root_positioning_cases.2 gameAB 800 demoSizes stA "b" c7bTopoPair.1 stAB
        c7bTopoPair.2 (by decide) (by rfl) (by rfl)
    rw [hhead]
    rfl

/-! ## The structural invariant of reachable states -/

/-- The structural invariant maintained by the public operations:
distinct node identities, adjacency references into the live sequence,
count-level adjacency symmetry, the two name indices in exact correspondence
with the sequence, no isolated thing node, and every recipe node's neighbors
drawn from its domain recipe. -/
structure Inv (game : Game) (s : St) : Prop where
  nodupIds : (s.nodes.map VNode.id).Nodup
  idsLt : ∀ n ∈ s.nodes, n.id < s.nextId
  noDangling : ∀ n ∈ s.nodes, ∀ m ∈ n.leftNeighbors ++ n.rightNeighbors,
    ∃ p ∈ s.nodes, p.id = m
  sym : ∀ a ∈ s.nodes, ∀ b ∈ s.nodes,
    a.rightNeighbors.count b.id = b.leftNeighbors.count a.id
  thIdx : ∀ name tid, lookupKey s.thingNodes name = some tid ↔
    ∃ n ∈ s.nodes, n.id = tid ∧ n.content.kind = NodeKind.thing ∧ n.content.name = name
  recIdx : ∀ name rid, lookupKey s.recipeNodes name = some rid ↔
    ∃ n ∈ s.nodes, n.id = rid ∧ n.content.kind = NodeKind.recipe ∧ n.content.name = name
  thingDeg : ∀ n ∈ s.nodes, n.content.kind = NodeKind.thing →
    n.leftNeighbors ≠ [] ∨ n.rightNeighbors ≠ []
  recNbr : ∀ n ∈ s.nodes, n.content.kind = NodeKind.recipe →
    ∃ r, lookupKey game.recipes n.content.name = some r ∧
      ∀ m ∈ n.leftNeighbors ++ n.rightNeighbors, ∀ p ∈ s.nodes, p.id = m →
        p.content.kind = NodeKind.thing ∧
        p.content.name ∈ (r.ingredients ++ r.products).map (fun x => x.thing.name)

theorem inv_empty (game : Game) : Inv game emptySt := by
  constructor <;> simp [emptySt, lookupKey]

/-- With pairwise-distinct ids, equal ids force equal nodes. -/
theorem id_inj {ns : List VNode} (hnd : (ns.map VNode.id).Nodup)
    {a b : VNode} (ha : a ∈ ns) (hb : b ∈ ns) (hab : a.id = b.id) : a = b :=
  List.inj_on_of_nodup_map hnd ha hb hab

/-- With pairwise-distinct ids, `find?` by id retrieves the member itself. -/
theorem find_id_of_nodup {ns : List VNode} (hnd : (ns.map VNode.id).Nodup)
    {a : VNode} (ha : a ∈ ns) :
    ns.find? (fun n => n.id = a.id) = some a := by
  induction ns with
  | nil => exact absurd ha (List.not_mem_nil _)
  | cons h t ih =>
      by_cases hh : h.id = a.id
      · have : h = a := id_inj hnd (List.mem_cons_self _ _) ha hh
        subst this
        simp [List.find?]
      · have ha' : a ∈ t := by
          rcases List.mem_cons.mp ha with rfl | ht
          · exact absurd rfl hh
          · exact ht
        rw [List.find?_cons_of_neg]
        · exact ih (List.Nodup.of_cons (by simpa using hnd)) ha'
        · simp [hh]

/-- Remove every occurrence of `x` (proof-side description of a completed
paired unlink). -/
def filterOut (x : Nat) : List Nat → List Nat
  | [] => []
  | y :: t => if y = x then filterOut x t else y :: filterOut x t

theorem mem_filterOut {x m : Nat} {l : List Nat} :
    m ∈ filterOut x l ↔ m ∈ l ∧ m ≠ x := by
  induction l with
  | nil => simp [filterOut]
  | cons y t ih =>
      by_cases hy : y = x
      · subst hy
        simp only [filterOut, eq_self_iff_true, if_true]
        rw [ih]
        constructor
        · rintro ⟨hm, hne⟩
          exact ⟨List.mem_cons_of_mem _ hm, hne⟩
        · rintro ⟨hm, hne⟩
          rcases List.mem_cons.mp hm with rfl | hm2
          · exact absurd rfl hne
          · exact ⟨hm2, hne⟩
      · simp only [filterOut, if_neg hy]
        constructor
        · intro hmem
          rcases List.mem_cons.mp hmem with rfl | hm
          · exact ⟨List.mem_cons_self _ _, hy⟩
          · obtain ⟨h1, h2⟩ := ih.mp hm
            exact ⟨List.mem_cons_of_mem _ h1, h2⟩
        · rintro ⟨hm, hne⟩
          rcases List.mem_cons.mp hm with rfl | hm2
          · exact List.mem_cons_self _ _
          · exact List.mem_cons_of_mem _ (ih.mpr ⟨hm2, hne⟩)

theorem count_filterOut_self (x : Nat) (l : List Nat) :
    (filterOut x l).count x = 0 := by
  rw [List.count_eq_zero]
  intro hmem
  exact (mem_filterOut.mp hmem).2 rfl

theorem count_filterOut_ne {y x : Nat} (h : y ≠ x) (l : List Nat) :
    (filterOut x l).count y = l.count y := by
  induction l with
  | nil => rfl
  | cons z t ih =>
      by_cases hz : z = x
      · subst hz
        rw [filterOut, if_pos rfl, ih, List.count_cons]
        simp [Ne.symm h]
      · rw [filterOut, if_neg hz, List.count_cons, List.count_cons, ih]

theorem filterOut_eq_self {x : Nat} {l : List Nat} (h : x ∉ l) :
    filterOut x l = l := by
  induction l with
  | nil => rfl
  | cons y t ih =>
      have hy : y ≠ x := fun hyx => h (hyx ▸ List.mem_cons_self _ _)
      rw [filterOut, if_neg hy, ih (fun hm => h (List.mem_cons_of_mem _ hm))]

theorem filterOut_erase (x : Nat) (l : List Nat) :
    filterOut x (l.erase x) = filterOut x l := by
  induction l with
  | nil => rfl
  | cons y t ih =>
      by_cases hy : y = x
      · subst hy
        rw [List.erase_cons_head, filterOut, if_pos rfl]
      · rw [List.erase_cons_tail (by simp [hy]), filterOut, filterOut, if_neg hy, if_neg hy, ih]

/-- Iterated first-occurrence erasure. -/
def eraseCounted : Nat → Nat → List Nat → List Nat
  | 0, _, l => l
  | k + 1, x, l => eraseCounted k x (l.erase x)

theorem eraseCounted_count_eq (x : Nat) :
    ∀ (c : Nat) (l : List Nat), l.count x = c → eraseCounted c x l = filterOut x l := by
  intro c
  induction c with
  | zero =>
      intro l hc
      rw [List.count_eq_zero] at hc
      rw [eraseCounted, filterOut_eq_self hc]
  | succ k ih =>
      intro l hc
      have hx : x ∈ l := by
        rw [← List.count_pos_iff, hc]
        exact Nat.succ_pos _
      have hk : (l.erase x).count x = k := by
        rw [List.count_erase_self, hc]
        rfl
      rw [eraseCounted, ih _ hk, filterOut_erase]

/-! ### Element-level effect of the paired link operations -/

/-- The element-level function applied by `linkIngredient` (both `updNode`
passes combined, for distinct ids). -/
def ingLinkFun (tid rid : Nat) (n : VNode) : VNode :=
  if n.id = tid then pushRight rid n
  else if n.id = rid then pushLeft tid n
  else n

/-- The element-level function applied by `linkProduct`. -/
def prodLinkFun (tid rid : Nat) (n : VNode) : VNode :=
  if n.id = tid then pushLeft rid n
  else if n.id = rid then pushRight tid n
  else n

theorem linkIngredient_eq {tid rid : Nat} (hne : tid ≠ rid) (ns : List VNode) :
    linkIngredient tid rid ns = ns.map (ingLinkFun tid rid) := by
  unfold linkIngredient updNode
  rw [List.map_map]
  apply List.map_congr_left
  intro n _
  simp only [Function.comp]
  unfold ingLinkFun
  by_cases h1 : n.id = tid
  · rw [if_pos h1, if_pos h1]
    have h2 : (pushRight rid n).id ≠ rid := by
      unfold pushRight
      intro hc
      exact hne (h1 ▸ hc)
    rw [if_neg h2]
  · rw [if_neg h1, if_neg h1]

theorem linkProduct_eq {tid rid : Nat} (hne : tid ≠ rid) (ns : List VNode) :
    linkProduct tid rid ns = ns.map (prodLinkFun tid rid) := by
  unfold linkProduct updNode
  rw [List.map_map]
  apply List.map_congr_left
  intro n _
  simp only [Function.comp]
  unfold prodLinkFun
  by_cases h1 : n.id = tid
  · rw [if_pos h1, if_pos h1]
    have h2 : (pushLeft rid n).id ≠ rid := by
      unfold pushLeft
      intro hc
      exact hne (h1 ▸ hc)
    rw [if_neg h2]
  · rw [if_neg h1, if_neg h1]

theorem ingLinkFun_id (tid rid : Nat) (n : VNode) : (ingLinkFun tid rid n).id = n.id := by
  unfold ingLinkFun pushRight pushLeft
  by_cases h1 : n.id = tid
  · rw [if_pos h1]
  · rw [if_neg h1]
    by_cases h2 : n.id = rid
    · rw [if_pos h2]
    · rw [if_neg h2]

theorem ingLinkFun_content (tid rid : Nat) (n : VNode) :
    (ingLinkFun tid rid n).content = n.content := by
  unfold ingLinkFun pushRight pushLeft
  by_cases h1 : n.id = tid
  · rw [if_pos h1]
  · rw [if_neg h1]
    by_cases h2 : n.id = rid
    · rw [if_pos h2]
    · rw [if_neg h2]

theorem prodLinkFun_id (tid rid : Nat) (n : VNode) : (prodLinkFun tid rid n).id = n.id := by
  unfold prodLinkFun pushRight pushLeft
  by_cases h1 : n.id = tid
  · rw [if_pos h1]
  · rw [if_neg h1]
    by_cases h2 : n.id = rid
    · rw [if_pos h2]
    · rw [if_neg h2]

theorem prodLinkFun_content (tid rid : Nat) (n : VNode) :
    (prodLinkFun tid rid n).content = n.content := by
  unfold prodLinkFun pushRight pushLeft
  by_cases h1 : n.id = tid
  · rw [if_pos h1]
  · rw [if_neg h1]
    by_cases h2 : n.id = rid
    · rw [if_pos h2]
    · rw [if_neg h2]

theorem ingLinkFun_right (tid rid : Nat) (n : VNode) :
    (ingLinkFun tid rid n).rightNeighbors =
      if n.id = tid then n.rightNeighbors ++ [rid] else n.rightNeighbors := by
  unfold ingLinkFun pushRight pushLeft
  by_cases h1 : n.id = tid
  · rw [if_pos h1, if_pos h1]
  · rw [if_neg h1, if_neg h1]
    by_cases h2 : n.id = rid
    · rw [if_pos h2]
    · rw [if_neg h2]

theorem ingLinkFun_left {tid rid : Nat} (hne : tid ≠ rid) (n : VNode) :
    (ingLinkFun tid rid n).leftNeighbors =
      if n.id = rid then n.leftNeighbors ++ [tid] else n.leftNeighbors := by
  unfold ingLinkFun pushRight pushLeft
  by_cases h1 : n.id = tid
  · rw [if_pos h1, if_neg (fun hc => hne (h1 ▸ hc))]
  · rw [if_neg h1]
    by_cases h2 : n.id = rid
    · rw [if_pos h2, if_pos h2]
    · rw [if_neg h2, if_neg h2]

theorem prodLinkFun_left (tid rid : Nat) (n : VNode) :
    (prodLinkFun tid rid n).leftNeighbors =
      if n.id = tid then n.leftNeighbors ++ [rid] else n.leftNeighbors := by
  unfold prodLinkFun pushRight pushLeft
  by_cases h1 : n.id = tid
  · rw [if_pos h1, if_pos h1]
  · rw [if_neg h1, if_neg h1]
    by_cases h2 : n.id = rid
    · rw [if_pos h2]
    · rw [if_neg h2]

theorem prodLinkFun_right {tid rid : Nat} (hne : tid ≠ rid) (n : VNode) :
    (prodLinkFun tid rid n).rightNeighbors =
      if n.id = rid then n.rightNeighbors ++ [tid] else n.rightNeighbors := by
  unfold prodLinkFun pushRight pushLeft
  by_cases h1 : n.id = tid
  · rw [if_pos h1, if_neg (fun hc => hne (h1 ▸ hc))]
  · rw [if_neg h1]
    by_cases h2 : n.id = rid
    · rw [if_pos h2, if_pos h2]
    · rw [if_neg h2, if_neg h2]

theorem count_append_single (y x : Nat) (l : List Nat) :
    (l ++ [x]).count y = l.count y + (if y = x then 1 else 0) := by
  by_cases h : y = x <;> simp [List.count_append, h]

/-- Transfer of content-level existence statements through an id- and
content-preserving map. -/
theorem exists_map_iff {ns : List VNode} {G : VNode → VNode}
    (hG : ∀ n, (G n).id = n.id ∧ (G n).content = n.content)
    (P : Nat → NodeContent → Prop) :
    (∃ p ∈ ns.map G, P p.id p.content) ↔ ∃ n ∈ ns, P n.id n.content := by
  constructor
  · rintro ⟨p, hp, hP⟩
    obtain ⟨n, hn, rfl⟩ := List.mem_map.mp hp
    exact ⟨n, hn, by rw [← (hG n).1, ← (hG n).2]; exact hP⟩
  · rintro ⟨n, hn, hP⟩
    exact ⟨G n, List.mem_map_of_mem _ hn, by rw [(hG n).1, (hG n).2]; exact hP⟩

/-- `Inv` without the thing-degree constraint, which is transiently violated
between the creation of a fresh thing node and its immediate paired link, and
between a removal's unlink phase and its cascade. -/
structure Inv0 (game : Game) (s : St) : Prop where
  nodupIds : (s.nodes.map VNode.id).Nodup
  idsLt : ∀ n ∈ s.nodes, n.id < s.nextId
  noDangling : ∀ n ∈ s.nodes, ∀ m ∈ n.leftNeighbors ++ n.rightNeighbors,
    ∃ p ∈ s.nodes, p.id = m
  sym : ∀ a ∈ s.nodes, ∀ b ∈ s.nodes,
    a.rightNeighbors.count b.id = b.leftNeighbors.count a.id
  thIdx : ∀ name tid, lookupKey s.thingNodes name = some tid ↔
    ∃ n ∈ s.nodes, n.id = tid ∧ n.content.kind = NodeKind.thing ∧ n.content.name = name
  recIdx : ∀ name rid, lookupKey s.recipeNodes name = some rid ↔
    ∃ n ∈ s.nodes, n.id = rid ∧ n.content.kind = NodeKind.recipe ∧ n.content.name = name
  recNbr : ∀ n ∈ s.nodes, n.content.kind = NodeKind.recipe →
    ∃ r, lookupKey game.recipes n.content.name = some r ∧
      ∀ m ∈ n.leftNeighbors ++ n.rightNeighbors, ∀ p ∈ s.nodes, p.id = m →
        p.content.kind = NodeKind.thing ∧
        p.content.name ∈ (r.ingredients ++ r.products).map (fun x => x.thing.name)

theorem Inv.weaken {game : Game} {s : St} (h : Inv game s) : Inv0 game s :=
  ⟨h.nodupIds, h.idsLt, h.noDangling, h.sym, h.thIdx, h.recIdx, h.recNbr⟩

theorem Inv0.strengthen {game : Game} {s : St} (h : Inv0 game s)
    (hdeg : ∀ n ∈ s.nodes, n.content.kind = NodeKind.thing →
      n.leftNeighbors ≠ [] ∨ n.rightNeighbors ≠ []) : Inv game s :=
  ⟨h.nodupIds, h.idsLt, h.noDangling, h.sym, h.thIdx, h.recIdx, hdeg, h.recNbr⟩

/-- A not-yet-allocated id is referenced by no adjacency list. -/
theorem not_ref_of_fresh {game : Game} {s : St} (h : Inv0 game s) {n : VNode}
    (hn : n ∈ s.nodes) {m : Nat} (hm : s.nextId ≤ m) :
    m ∉ n.leftNeighbors ∧ m ∉ n.rightNeighbors := by
  constructor <;> intro hmem
  · obtain ⟨p, hp, hpid⟩ := h.noDangling n hn m (List.mem_append_left _ hmem)
    exact absurd (h.idsLt p hp) (by rw [hpid]; exact Nat.not_lt.mpr hm)
  · obtain ⟨p, hp, hpid⟩ := h.noDangling n hn m (List.mem_append_right _ hmem)
    exact absurd (h.idsLt p hp) (by rw [hpid]; exact Nat.not_lt.mpr hm)

/-- Registering a fresh thing node (lines 78-92 / 101-115 before the pushes)
preserves everything but its thing-degree. -/
theorem inv0_appendFresh {game : Game} {s : St} (hinv : Inv0 game s) (th : Thing)
    (hlook : lookupKey s.thingNodes th.name = none) :
    Inv0 game { nextId := s.nextId + 1,
                nodes := s.nodes ++ [mkThingNode s.nextId th],
                recipeNodes := s.recipeNodes,
                thingNodes := (th.name, s.nextId) :: s.thingNodes } := by
  constructor
  · rw [List.map_append]
    refine List.Nodup.append hinv.nodupIds (by simp [mkThingNode]) ?_
    intro a ha hb
    simp only [mkThingNode, List.map_cons, List.map_nil, List.mem_singleton] at hb
    obtain ⟨p, hp, hpid⟩ := List.mem_map.mp ha
    subst hb
    exact absurd (hinv.idsLt p hp) (by rw [hpid]; exact Nat.lt_irrefl _)
  · intro n hn
    rcases List.mem_append.mp hn with hn | hn
    · exact Nat.lt_succ_of_lt (hinv.idsLt n hn)
    · rw [List.mem_singleton] at hn
      subst hn
      exact Nat.lt_succ_self _
  · intro n hn m hm
    rcases List.mem_append.mp hn with hn | hn
    · obtain ⟨p, hp, hpid⟩ := hinv.noDangling n hn m hm
      exact ⟨p, List.mem_append_left _ hp, hpid⟩
    · rw [List.mem_singleton] at hn
      subst hn
      simp [mkThingNode] at hm
  · intro a ha b hb
    rcases List.mem_append.mp ha with ha2 | ha2 <;> rcases List.mem_append.mp hb with hb2 | hb2
    · exact hinv.sym a ha2 b hb2
    · rw [List.mem_singleton] at hb2
      subst hb2
      simp only [mkThingNode]
      rw [List.count_eq_zero.mpr (not_ref_of_fresh hinv ha2 (Nat.le_refl _)).2]
      rfl
    · rw [List.mem_singleton] at ha2
      subst ha2
      simp only [mkThingNode]
      rw [List.count_eq_zero.mpr (not_ref_of_fresh hinv hb2 (Nat.le_refl _)).1]
      rfl
    · rw [List.mem_singleton] at ha2
      rw [List.mem_singleton] at hb2
      subst ha2
      subst hb2
      rfl
  · intro name tid
    constructor
    · intro hfound
      simp only [lookupKey] at hfound
      by_cases he : th.name = name
      · rw [if_pos he] at hfound
        refine ⟨mkThingNode s.nextId th, List.mem_append_right _ (List.mem_singleton_self _),
          ?_, rfl, he⟩
        exact ((Option.some.injEq _ _).mp hfound)
      · rw [if_neg he] at hfound
        obtain ⟨n, hn, hrest⟩ := (hinv.thIdx name tid).mp hfound
        exact ⟨n, List.mem_append_left _ hn, hrest⟩
    · rintro ⟨n, hn, hid, hkind, hname⟩
      simp only [lookupKey]
      rcases List.mem_append.mp hn with hn2 | hn2
      · have hold : lookupKey s.thingNodes name = some tid :=
          (hinv.thIdx name tid).mpr ⟨n, hn2, hid, hkind, hname⟩
        have hne : th.name ≠ name := by
          intro he
          rw [he] at hlook
          rw [hlook] at hold
          exact Option.noConfusion hold
        rw [if_neg hne]
        exact hold
      · rw [List.mem_singleton] at hn2
        subst hn2
        simp only [mkThingNode] at hname hid
        rw [if_pos hname, hid]
  · intro name rid
    constructor
    · intro hfound
      obtain ⟨n, hn, hrest⟩ := (hinv.recIdx name rid).mp hfound
      exact ⟨n, List.mem_append_left _ hn, hrest⟩
    · rintro ⟨n, hn, hid, hkind, hname⟩
      rcases List.mem_append.mp hn with hn2 | hn2
      · exact (hinv.recIdx name rid).mpr ⟨n, hn2, hid, hkind, hname⟩
      · rw [List.mem_singleton] at hn2
        subst hn2
        simp [mkThingNode] at hkind
  · intro n hn hk
    rcases List.mem_append.mp hn with hn2 | hn2
    · obtain ⟨r, hr, hcond⟩ := hinv.recNbr n hn2 hk
      refine ⟨r, hr, ?_⟩
      intro m hm p hp hpid
      rcases List.mem_append.mp hp with hp2 | hp2
      · exact hcond m hm p hp2 hpid
      · rw [List.mem_singleton] at hp2
        subst hp2
        simp only [mkThingNode] at hpid
        rcases List.mem_append.mp hm with hm2 | hm2
        · exact absurd hm2 ((hpid ▸ not_ref_of_fresh hinv hn2 (Nat.le_refl _)).1)
        · exact absurd hm2 ((hpid ▸ not_ref_of_fresh hinv hn2 (Nat.le_refl _)).2)
    · rw [List.mem_singleton] at hn2
      subst hn2
      simp [mkThingNode] at hk

/-- Linking an existing thing node as an ingredient of the recipe node under
construction (the paired pushes of lines 94-95) preserves the weak
invariant. -/
theorem inv0_linkIngredient {game : Game} {s : St} {tid rid : Nat}
    {tn rn : VNode} {r : Recipe}
    (hinv : Inv0 game s)
    (htn : tn ∈ s.nodes) (htid : tn.id = tid)
    (htk : tn.content.kind = NodeKind.thing)
    (hrn : rn ∈ s.nodes) (hrid : rn.id = rid)
    (hrk : rn.content.kind = NodeKind.recipe)
    (hrg : lookupKey game.recipes rn.content.name = some r)
    (hname : tn.content.name ∈ (r.ingredients ++ r.products).map (fun x => x.thing.name)) :
    Inv0 game { s with nodes := linkIngredient tid rid s.nodes } := by
  have hne : tid ≠ rid := by
    intro he
    have heq : tn = rn := id_inj hinv.nodupIds htn hrn (by rw [htid, hrid, he])
    rw [heq, hrk] at htk
    exact NodeKind.noConfusion htk
  have hGic : ∀ n : VNode, (ingLinkFun tid rid n).id = n.id ∧
      (ingLinkFun tid rid n).content = n.content :=
    fun n => ⟨ingLinkFun_id tid rid n, ingLinkFun_content tid rid n⟩
  rw [linkIngredient_eq hne]
  constructor
  · show ((s.nodes.map (ingLinkFun tid rid)).map VNode.id).Nodup
    rw [List.map_map]
    have heq : s.nodes.map (VNode.id ∘ ingLinkFun tid rid) = s.nodes.map VNode.id :=
      List.map_congr_left (fun n _ => (hGic n).1)
    rw [heq]
    exact hinv.nodupIds
  · intro n2 hn2
    obtain ⟨n, hn, rfl⟩ := List.mem_map.mp hn2
    rw [(hGic n).1]
    exact hinv.idsLt n hn
  · intro n2 hn2 m hm
    obtain ⟨n, hn, rfl⟩ := List.mem_map.mp hn2
    have hmem2 : m ∈ n.leftNeighbors ++ n.rightNeighbors ∨ m = tid ∨ m = rid := by
      rcases List.mem_append.mp hm with hl | hr
      · rw [ingLinkFun_left hne] at hl
        by_cases h : n.id = rid
        · rw [if_pos h] at hl
          rcases List.mem_append.mp hl with h2 | h2
          · exact Or.inl (List.mem_append_left _ h2)
          · rw [List.mem_singleton] at h2
            exact Or.inr (Or.inl h2)
        · rw [if_neg h] at hl
          exact Or.inl (List.mem_append_left _ hl)
      · rw [ingLinkFun_right] at hr
        by_cases h : n.id = tid
        · rw [if_pos h] at hr
          rcases List.mem_append.mp hr with h2 | h2
          · exact Or.inl (List.mem_append_right _ h2)
          · rw [List.mem_singleton] at h2
            exact Or.inr (Or.inr h2)
        · rw [if_neg h] at hr
          exact Or.inl (List.mem_append_right _ hr)
    rcases hmem2 with hold | htm | hrm
    · obtain ⟨p, hp, hpid⟩ := hinv.noDangling n hn m hold
      exact ⟨ingLinkFun tid rid p, List.mem_map_of_mem _ hp, by rw [(hGic p).1]; exact hpid⟩
    · exact ⟨ingLinkFun tid rid tn, List.mem_map_of_mem _ htn,
        by rw [(hGic tn).1, htid, htm]⟩
    · exact ⟨ingLinkFun tid rid rn, List.mem_map_of_mem _ hrn,
        by rw [(hGic rn).1, hrid, hrm]⟩
  · intro a2 ha2 b2 hb2
    obtain ⟨a, ha, rfl⟩ := List.mem_map.mp ha2
    obtain ⟨b, hb, rfl⟩ := List.mem_map.mp hb2
    rw [ingLinkFun_right, ingLinkFun_left hne, (hGic a).1, (hGic b).1]
    by_cases hat : a.id = tid
    · rw [if_pos hat]
      by_cases hbr : b.id = rid
      · rw [if_pos hbr, count_append_single, count_append_single, if_pos hbr, if_pos hat,
          hinv.sym a ha b hb]
      · rw [if_neg hbr, count_append_single, if_neg hbr, Nat.add_zero, hinv.sym a ha b hb]
    · rw [if_neg hat]
      by_cases hbr : b.id = rid
      · rw [if_pos hbr, count_append_single, if_neg hat, Nat.add_zero, hinv.sym a ha b hb]
      · rw [if_neg hbr, hinv.sym a ha b hb]
  · intro name tid2
    exact (hinv.thIdx name tid2).trans
      (exists_map_iff hGic (fun i c => i = tid2 ∧ c.kind = NodeKind.thing ∧ c.name = name)).symm
  · intro name rid2
    exact (hinv.recIdx name rid2).trans
      (exists_map_iff hGic (fun i c => i = rid2 ∧ c.kind = NodeKind.recipe ∧ c.name = name)).symm
  · intro n2 hn2 hk2
    obtain ⟨n, hn, rfl⟩ := List.mem_map.mp hn2
    rw [(hGic n).2] at hk2
    have hnt : n.id ≠ tid := by
      intro hc
      have heq : n = tn := id_inj hinv.nodupIds hn htn (by rw [hc, htid])
      rw [heq, htk] at hk2
      exact NodeKind.noConfusion hk2
    obtain ⟨r0, hr0, hcond⟩ := hinv.recNbr n hn hk2
    refine ⟨r0, by rw [(hGic n).2]; exact hr0, ?_⟩
    intro m hm p2 hp2 hpid
    obtain ⟨p, hp, rfl⟩ := List.mem_map.mp hp2
    rw [(hGic p).1] at hpid
    rw [(hGic p).2]
    rw [ingLinkFun_left hne, ingLinkFun_right, if_neg hnt] at hm
    by_cases hnr : n.id = rid
    · rw [if_pos hnr] at hm
      have hm2 : m ∈ n.leftNeighbors ++ n.rightNeighbors ∨ m = tid := by
        rcases List.mem_append.mp hm with hl | hr2
        · rcases List.mem_append.mp hl with h2 | h2
          · exact Or.inl (List.mem_append_left _ h2)
          · rw [List.mem_singleton] at h2
            exact Or.inr h2
        · exact Or.inl (List.mem_append_right _ hr2)
      rcases hm2 with hold | rfl
      · exact hcond m hold p hp hpid
      · have hptn : p = tn := id_inj hinv.nodupIds hp htn (by rw [hpid, htid])
        subst hptn
        have hnrn : n = rn := id_inj hinv.nodupIds hn hrn (by rw [hnr, hrid])
        rw [hnrn, hrg] at hr0
        have hr0r : r0 = r := ((Option.some.injEq _ _).mp hr0).symm
        rw [hr0r]
        exact ⟨htk, hname⟩
    · rw [if_neg hnr] at hm
      exact hcond m hm p hp hpid

/-- Linking an existing thing node as a product of the recipe node under
construction (the paired pushes of lines 117-118) preserves the weak
invariant. -/
theorem inv0_linkProduct {game : Game} {s : St} {tid rid : Nat}
    {tn rn : VNode} {r : Recipe}
    (hinv : Inv0 game s)
    (htn : tn ∈ s.nodes) (htid : tn.id = tid)
    (htk : tn.content.kind = NodeKind.thing)
    (hrn : rn ∈ s.nodes) (hrid : rn.id = rid)
    (hrk : rn.content.kind = NodeKind.recipe)
    (hrg : lookupKey game.recipes rn.content.name = some r)
    (hname : tn.content.name ∈ (r.ingredients ++ r.products).map (fun x => x.thing.name)) :
    Inv0 game { s with nodes := linkProduct tid rid s.nodes } := by
  have hne : tid ≠ rid := by
    intro he
    have heq : tn = rn := id_inj hinv.nodupIds htn hrn (by rw [htid, hrid, he])
    rw [heq, hrk] at htk
    exact NodeKind.noConfusion htk
  have hGic : ∀ n : VNode, (prodLinkFun tid rid n).id = n.id ∧
      (prodLinkFun tid rid n).content = n.content :=
    fun n => ⟨prodLinkFun_id tid rid n, prodLinkFun_content tid rid n⟩
  rw [linkProduct_eq hne]
  constructor
  · show ((s.nodes.map (prodLinkFun tid rid)).map VNode.id).Nodup
    rw [List.map_map]
    have heq : s.nodes.map (VNode.id ∘ prodLinkFun tid rid) = s.nodes.map VNode.id :=
      List.map_congr_left (fun n _ => (hGic n).1)
    rw [heq]
    exact hinv.nodupIds
  · intro n2 hn2
    obtain ⟨n, hn, rfl⟩ := List.mem_map.mp hn2
    rw [(hGic n).1]
    exact hinv.idsLt n hn
  · intro n2 hn2 m hm
    obtain ⟨n, hn, rfl⟩ := List.mem_map.mp hn2
    have hmem2 : m ∈ n.leftNeighbors ++ n.rightNeighbors ∨ m = tid ∨ m = rid := by
      rcases List.mem_append.mp hm with hl | hr
      · rw [prodLinkFun_left] at hl
        by_cases h : n.id = tid
        · rw [if_pos h] at hl
          rcases List.mem_append.mp hl with h2 | h2
          · exact Or.inl (List.mem_append_left _ h2)
          · rw [List.mem_singleton] at h2
            exact Or.inr (Or.inr h2)
        · rw [if_neg h] at hl
          exact Or.inl (List.mem_append_left _ hl)
      · rw [prodLinkFun_right hne] at hr
        by_cases h : n.id = rid
        · rw [if_pos h] at hr
          rcases List.mem_append.mp hr with h2 | h2
          · exact Or.inl (List.mem_append_right _ h2)
          · rw [List.mem_singleton] at h2
            exact Or.inr (Or.inl h2)
        · rw [if_neg h] at hr
          exact Or.inl (List.mem_append_right _ hr)
    rcases hmem2 with hold | htm | hrm
    · obtain ⟨p, hp, hpid⟩ := hinv.noDangling n hn m hold
      exact ⟨prodLinkFun tid rid p, List.mem_map_of_mem _ hp, by rw [(hGic p).1]; exact hpid⟩
    · exact ⟨prodLinkFun tid rid tn, List.mem_map_of_mem _ htn,
        by rw [(hGic tn).1, htid, htm]⟩
    · exact ⟨prodLinkFun tid rid rn, List.mem_map_of_mem _ hrn,
        by rw [(hGic rn).1, hrid, hrm]⟩
  · intro a2 ha2 b2 hb2
    obtain ⟨a, ha, rfl⟩ := List.mem_map.mp ha2
    obtain ⟨b, hb, rfl⟩ := List.mem_map.mp hb2
    rw [prodLinkFun_right hne, prodLinkFun_left, (hGic a).1, (hGic b).1]
    by_cases har : a.id = rid
    · rw [if_pos har]
      by_cases hbt : b.id = tid
      · rw [if_pos hbt, count_append_single, count_append_single, if_pos hbt, if_pos har,
          hinv.sym a ha b hb]
      · rw [if_neg hbt, count_append_single, if_neg hbt, Nat.add_zero, hinv.sym a ha b hb]
    · rw [if_neg har]
      by_cases hbt : b.id = tid
      · rw [if_pos hbt, count_append_single, if_neg har, Nat.add_zero, hinv.sym a ha b hb]
      · rw [if_neg hbt, hinv.sym a ha b hb]
  · intro name tid2
    exact (hinv.thIdx name tid2).trans
      (exists_map_iff hGic (fun i c => i = tid2 ∧ c.kind = NodeKind.thing ∧ c.name = name)).symm
  · intro name rid2
    exact (hinv.recIdx name rid2).trans
      (exists_map_iff hGic (fun i c => i = rid2 ∧ c.kind = NodeKind.recipe ∧ c.name = name)).symm
  · intro n2 hn2 hk2
    obtain ⟨n, hn, rfl⟩ := List.mem_map.mp hn2
    rw [(hGic n).2] at hk2
    have hnt : n.id ≠ tid := by
      intro hc
      have heq : n = tn := id_inj hinv.nodupIds hn htn (by rw [hc, htid])
      rw [heq, htk] at hk2
      exact NodeKind.noConfusion hk2
    obtain ⟨r0, hr0, hcond⟩ := hinv.recNbr n hn hk2
    refine ⟨r0, by rw [(hGic n).2]; exact hr0, ?_⟩
    intro m hm p2 hp2 hpid
    obtain ⟨p, hp, rfl⟩ := List.mem_map.mp hp2
    rw [(hGic p).1] at hpid
    rw [(hGic p).2]
    rw [prodLinkFun_left, prodLinkFun_right hne, if_neg hnt] at hm
    by_cases hnr : n.id = rid
    · rw [if_pos hnr] at hm
      have hm2 : m ∈ n.leftNeighbors ++ n.rightNeighbors ∨ m = tid := by
        rcases List.mem_append.mp hm with hl | hr2
        · exact Or.inl (List.mem_append_left _ hl)
        · rcases List.mem_append.mp hr2 with h2 | h2
          · exact Or.inl (List.mem_append_right _ h2)
          · rw [List.mem_singleton] at h2
            exact Or.inr h2
      rcases hm2 with hold | rfl
      · exact hcond m hold p hp hpid
      · have hptn : p = tn := id_inj hinv.nodupIds hp htn (by rw [hpid, htid])
        subst hptn
        have hnrn : n = rn := id_inj hinv.nodupIds hn hrn (by rw [hnr, hrid])
        rw [hnrn, hrg] at hr0
        have hr0r : r0 = r := ((Option.some.injEq _ _).mp hr0).symm
        rw [hr0r]
        exact ⟨htk, hname⟩
    · rw [if_neg hnr] at hm
      exact hcond m hm p hp hpid

/-! ### Invariant preservation through the topology phase -/

theorem thingDeg_linkIngredient {tid rid : Nat} (hne : tid ≠ rid) {ns : List VNode}
    (h : ∀ n ∈ ns, n.content.kind = NodeKind.thing →
      n.leftNeighbors ≠ [] ∨ n.rightNeighbors ≠ [] ∨ n.id = tid) :
    ∀ p ∈ linkIngredient tid rid ns, p.content.kind = NodeKind.thing →
      p.leftNeighbors ≠ [] ∨ p.rightNeighbors ≠ [] := by
  rw [linkIngredient_eq hne]
  intro p hp hk
  obtain ⟨n, hn, rfl⟩ := List.mem_map.mp hp
  rw [ingLinkFun_content] at hk
  rw [ingLinkFun_left hne, ingLinkFun_right]
  rcases h n hn hk with h1 | h1 | h1
  · left
    by_cases hc : n.id = rid
    · rw [if_pos hc]
      simp
    · rw [if_neg hc]
      exact h1
  · right
    by_cases hc : n.id = tid
    · rw [if_pos hc]
      simp
    · rw [if_neg hc]
      exact h1
  · right
    rw [if_pos h1]
    simp

theorem thingDeg_linkProduct {tid rid : Nat} (hne : tid ≠ rid) {ns : List VNode}
    (h : ∀ n ∈ ns, n.content.kind = NodeKind.thing →
      n.leftNeighbors ≠ [] ∨ n.rightNeighbors ≠ [] ∨ n.id = tid) :
    ∀ p ∈ linkProduct tid rid ns, p.content.kind = NodeKind.thing →
      p.leftNeighbors ≠ [] ∨ p.rightNeighbors ≠ [] := by
  rw [linkProduct_eq hne]
  intro p hp hk
  obtain ⟨n, hn, rfl⟩ := List.mem_map.mp hp
  rw [prodLinkFun_content] at hk
  rw [prodLinkFun_left, prodLinkFun_right hne]
  rcases h n hn hk with h1 | h1 | h1
  · left
    by_cases hc : n.id = tid
    · rw [if_pos hc]
      simp
    · rw [if_neg hc]
      exact h1
  · right
    by_cases hc : n.id = rid
    · rw [if_pos hc]
      simp
    · rw [if_neg hc]
      exact h1
  · left
    rw [if_pos h1]
    simp

/-- The context carried through the topology loops: the full invariant plus
the recipe node under construction. -/
def RecipeCtx (game : Game) (r : Recipe) (rid : Nat) (acc : St × List Nat) : Prop :=
  Inv game acc.1 ∧ ∃ rn ∈ acc.1.nodes, rn.id = rid ∧
    rn.content.kind = NodeKind.recipe ∧ rn.content.name = r.name

theorem recipeCtx_ingredientStep {game : Game} {r : Recipe} {rid : Nat}
    (hrg : lookupKey game.recipes r.name = some r)
    (acc : St × List Nat) (ing : Ingredient) (hing : ing ∈ r.ingredients)
    (hP : RecipeCtx game r rid acc) :
    RecipeCtx game r rid (addIngredientStep rid acc ing) := by
  obtain ⟨hinv, rn, hrn, hrid, hrk, hrname⟩ := hP
  have hrg2 : lookupKey game.recipes rn.content.name = some r := by
    rw [hrname]
    exact hrg
  have hnamemem : ing.thing.name ∈ (r.ingredients ++ r.products).map (fun x => x.thing.name) :=
    List.mem_map_of_mem _ (List.mem_append_left _ hing)
  unfold addIngredientStep
  dsimp only
  cases hlook : lookupKey acc.1.thingNodes ing.thing.name with
  | some tid =>
      obtain ⟨tn, htn, htid, htk, htname⟩ := (hinv.thIdx ing.thing.name tid).mp hlook
      have hne : tid ≠ rid := by
        intro he
        have heq : tn = rn := id_inj hinv.nodupIds htn hrn (by rw [htid, hrid, he])
        rw [heq, hrk] at htk
        exact NodeKind.noConfusion htk
      have hname2 : tn.content.name ∈
          (r.ingredients ++ r.products).map (fun x => x.thing.name) := by
        rw [htname]
        exact hnamemem
      constructor
      · refine (inv0_linkIngredient hinv.weaken htn htid htk hrn hrid hrk hrg2 hname2).strengthen ?_
        exact thingDeg_linkIngredient hne
          (fun n hn hk => Or.imp_right Or.inl (hinv.thingDeg n hn hk))
      · obtain ⟨p, hp, hpid, hpc⟩ :=
          keepsIdContent_linkIngredient tid rid acc.1.nodes rn hrn
        exact ⟨p, hp, by rw [hpid, hrid], by rw [hpc]; exact hrk, by rw [hpc]; exact hrname⟩
  | none =>
      set tn0 := mkThingNode acc.1.nextId ing.thing with htn0
      have hmid : Inv0 game
          { nextId := acc.1.nextId + 1,
            nodes := acc.1.nodes ++ [tn0],
            recipeNodes := acc.1.recipeNodes,
            thingNodes := (ing.thing.name, acc.1.nextId) :: acc.1.thingNodes } :=
        inv0_appendFresh hinv.weaken ing.thing hlook
      have htnmem : tn0 ∈ acc.1.nodes ++ [tn0] :=
        List.mem_append_right _ (List.mem_singleton_self _)
      have hrnmem : rn ∈ acc.1.nodes ++ [tn0] := List.mem_append_left _ hrn
      have hne : acc.1.nextId ≠ rid := by
        intro he
        exact absurd (hinv.idsLt rn hrn) (by rw [hrid, ← he]; exact Nat.lt_irrefl _)
      have hinv2 := inv0_linkIngredient hmid htnmem (by rw [htn0])
        (by rw [htn0]; rfl) hrnmem hrid hrk hrg2 (by rw [htn0]; exact hnamemem)
      constructor
      · refine hinv2.strengthen ?_
        refine thingDeg_linkIngredient hne ?_
        intro n hn hk
        rcases List.mem_append.mp hn with hn2 | hn2
        · exact Or.imp_right Or.inl (hinv.thingDeg n hn2 hk)
        · rw [List.mem_singleton] at hn2
          subst hn2
          right; right
          rw [htn0]
          rfl
      · obtain ⟨p, hp, hpid, hpc⟩ :=
          keepsIdContent_linkIngredient acc.1.nextId rid (acc.1.nodes ++ [tn0]) rn hrnmem
        exact ⟨p, hp, by rw [hpid, hrid], by rw [hpc]; exact hrk, by rw [hpc]; exact hrname⟩

theorem recipeCtx_productStep {game : Game} {r : Recipe} {rid : Nat}
    (hrg : lookupKey game.recipes r.name = some r)
    (acc : St × List Nat) (ing : Ingredient) (hing : ing ∈ r.products)
    (hP : RecipeCtx game r rid acc) :
    RecipeCtx game r rid (addProductStep rid acc ing) := by
  obtain ⟨hinv, rn, hrn, hrid, hrk, hrname⟩ := hP
  have hrg2 : lookupKey game.recipes rn.content.name = some r := by
    rw [hrname]
    exact hrg
  have hnamemem : ing.thing.name ∈ (r.ingredients ++ r.products).map (fun x => x.thing.name) :=
    List.mem_map_of_mem _ (List.mem_append_right _ hing)
  unfold addProductStep
  dsimp only
  cases hlook : lookupKey acc.1.thingNodes ing.thing.name with
  | some tid =>
      obtain ⟨tn, htn, htid, htk, htname⟩ := (hinv.thIdx ing.thing.name tid).mp hlook
      have hne : tid ≠ rid := by
        intro he
        have heq : tn = rn := id_inj hinv.nodupIds htn hrn (by rw [htid, hrid, he])
        rw [heq, hrk] at htk
        exact NodeKind.noConfusion htk
      have hname2 : tn.content.name ∈
          (r.ingredients ++ r.products).map (fun x => x.thing.name) := by
        rw [htname]
        exact hnamemem
      constructor
      · refine (inv0_linkProduct hinv.weaken htn htid htk hrn hrid hrk hrg2 hname2).strengthen ?_
        exact thingDeg_linkProduct hne
          (fun n hn hk => Or.imp_right Or.inl (hinv.thingDeg n hn hk))
      · obtain ⟨p, hp, hpid, hpc⟩ :=
          keepsIdContent_linkProduct tid rid acc.1.nodes rn hrn
        exact ⟨p, hp, by rw [hpid, hrid], by rw [hpc]; exact hrk, by rw [hpc]; exact hrname⟩
  | none =>
      set tn0 := mkThingNode acc.1.nextId ing.thing with htn0
      have hmid : Inv0 game
          { nextId := acc.1.nextId + 1,
            nodes := acc.1.nodes ++ [tn0],
            recipeNodes := acc.1.recipeNodes,
            thingNodes := (ing.thing.name, acc.1.nextId) :: acc.1.thingNodes } :=
        inv0_appendFresh hinv.weaken ing.thing hlook
      have htnmem : tn0 ∈ acc.1.nodes ++ [tn0] :=
        List.mem_append_right _ (List.mem_singleton_self _)
      have hrnmem : rn ∈ acc.1.nodes ++ [tn0] := List.mem_append_left _ hrn
      have hne : acc.1.nextId ≠ rid := by
        intro he
        exact absurd (hinv.idsLt rn hrn) (by rw [hrid, ← he]; exact Nat.lt_irrefl _)
      have hinv2 := inv0_linkProduct hmid htnmem (by rw [htn0])
        (by rw [htn0]; rfl) hrnmem hrid hrk hrg2 (by rw [htn0]; exact hnamemem)
      constructor
      · refine hinv2.strengthen ?_
        refine thingDeg_linkProduct hne ?_
        intro n hn hk
        rcases List.mem_append.mp hn with hn2 | hn2
        · exact Or.imp_right Or.inl (hinv.thingDeg n hn2 hk)
        · rw [List.mem_singleton] at hn2
          subst hn2
          right; right
          rw [htn0]
          rfl
      · obtain ⟨p, hp, hpid, hpc⟩ :=
          keepsIdContent_linkProduct acc.1.nextId rid (acc.1.nodes ++ [tn0]) rn hrnmem
        exact ⟨p, hp, by rw [hpid, hrid], by rw [hpc]; exact hrk, by rw [hpc]; exact hrname⟩

/-- Pushing and registering the new recipe node (lines 59-72) preserves the
invariant. -/
theorem inv_pushRecipe {game : Game} {s : St} {recipe : Recipe} {name : String}
    (hinv : Inv game s)
    (hlook : lookupKey s.recipeNodes name = none)
    (hg : lookupKey game.recipes name = some recipe)
    (hwfname : recipe.name = name) :
    Inv game { nextId := s.nextId + 1,
               nodes := s.nodes ++ [mkRecipeNode s.nextId recipe],
               recipeNodes := (recipe.name, s.nextId) :: s.recipeNodes,
               thingNodes := s.thingNodes } := by
  constructor
  · rw [List.map_append]
    refine List.Nodup.append hinv.nodupIds (by simp [mkRecipeNode]) ?_
    intro a ha hb
    simp only [mkRecipeNode, List.map_cons, List.map_nil, List.mem_singleton] at hb
    obtain ⟨p, hp, hpid⟩ := List.mem_map.mp ha
    subst hb
    exact absurd (hinv.idsLt p hp) (by rw [hpid]; exact Nat.lt_irrefl _)
  · intro n hn
    rcases List.mem_append.mp hn with hn | hn
    · exact Nat.lt_succ_of_lt (hinv.idsLt n hn)
    · rw [List.mem_singleton] at hn
      subst hn
      exact Nat.lt_succ_self _
  · intro n hn m hm
    rcases List.mem_append.mp hn with hn | hn
    · obtain ⟨p, hp, hpid⟩ := hinv.noDangling n hn m hm
      exact ⟨p, List.mem_append_left _ hp, hpid⟩
    · rw [List.mem_singleton] at hn
      subst hn
      simp [mkRecipeNode] at hm
  · intro a ha b hb
    rcases List.mem_append.mp ha with ha2 | ha2 <;> rcases List.mem_append.mp hb with hb2 | hb2
    · exact hinv.sym a ha2 b hb2
    · rw [List.mem_singleton] at hb2
      subst hb2
      simp only [mkRecipeNode]
      rw [List.count_eq_zero.mpr (not_ref_of_fresh hinv.weaken ha2 (Nat.le_refl _)).2]
      rfl
    · rw [List.mem_singleton] at ha2
      subst ha2
      simp only [mkRecipeNode]
      rw [List.count_eq_zero.mpr (not_ref_of_fresh hinv.weaken hb2 (Nat.le_refl _)).1]
      rfl
    · rw [List.mem_singleton] at ha2
      rw [List.mem_singleton] at hb2
      subst ha2
      subst hb2
      rfl
  · intro nm tid
    constructor
    · intro hfound
      obtain ⟨n, hn, hrest⟩ := (hinv.thIdx nm tid).mp hfound
      exact ⟨n, List.mem_append_left _ hn, hrest⟩
    · rintro ⟨n, hn, hid, hkind, hname2⟩
      rcases List.mem_append.mp hn with hn2 | hn2
      · exact (hinv.thIdx nm tid).mpr ⟨n, hn2, hid, hkind, hname2⟩
      · rw [List.mem_singleton] at hn2
        subst hn2
        simp [mkRecipeNode] at hkind
  · intro nm rid
    constructor
    · intro hfound
      simp only [lookupKey] at hfound
      by_cases he : recipe.name = nm
      · rw [if_pos he] at hfound
        refine ⟨mkRecipeNode s.nextId recipe,
          List.mem_append_right _ (List.mem_singleton_self _), ?_, rfl, he⟩
        exact (Option.some.injEq _ _).mp hfound
      · rw [if_neg he] at hfound
        obtain ⟨n, hn, hrest⟩ := (hinv.recIdx nm rid).mp hfound
        exact ⟨n, List.mem_append_left _ hn, hrest⟩
    · rintro ⟨n, hn, hid, hkind, hname2⟩
      simp only [lookupKey]
      rcases List.mem_append.mp hn with hn2 | hn2
      · have hold : lookupKey s.recipeNodes nm = some rid :=
          (hinv.recIdx nm rid).mpr ⟨n, hn2, hid, hkind, hname2⟩
        have hne2 : recipe.name ≠ nm := by
          intro he
          rw [hwfname] at he
          rw [← he] at hold
          rw [hlook] at hold
          exact Option.noConfusion hold
        rw [if_neg hne2]
        exact hold
      · rw [List.mem_singleton] at hn2
        subst hn2
        simp only [mkRecipeNode] at hname2 hid
        rw [if_pos hname2, hid]
  · intro n hn hk
    rcases List.mem_append.mp hn with hn2 | hn2
    · exact hinv.thingDeg n hn2 hk
    · rw [List.mem_singleton] at hn2
      subst hn2
      simp [mkRecipeNode] at hk
  · intro n hn hk
    rcases List.mem_append.mp hn with hn2 | hn2
    · obtain ⟨r, hr, hcond⟩ := hinv.recNbr n hn2 hk
      refine ⟨r, hr, ?_⟩
      intro m hm p hp hpid
      rcases List.mem_append.mp hp with hp2 | hp2
      · exact hcond m hm p hp2 hpid
      · rw [List.mem_singleton] at hp2
        subst hp2
        simp only [mkRecipeNode] at hpid
        rcases List.mem_append.mp hm with hm2 | hm2
        · exact absurd hm2 ((hpid ▸ not_ref_of_fresh hinv.weaken hn2 (Nat.le_refl _)).1)
        · exact absurd hm2 ((hpid ▸ not_ref_of_fresh hinv.weaken hn2 (Nat.le_refl _)).2)
    · rw [List.mem_singleton] at hn2
      subst hn2
      refine ⟨recipe, ?_, ?_⟩
      · show lookupKey game.recipes (mkRecipeNode s.nextId recipe).content.name = some recipe
        have : (mkRecipeNode s.nextId recipe).content.name = name := hwfname
        rw [this]
        exact hg
      · intro m hm
        simp [mkRecipeNode] at hm

/-- The whole topology phase preserves the invariant. -/
theorem addRecipeTopo_inv {game : Game} {s : St} {name : String} {s1 : St}
    {toPos : List Nat} (hwf : GameWF game) (hinv : Inv game s)
    (h : addRecipeTopo game s name = some (s1, toPos)) : Inv game s1 := by
  unfold addRecipeTopo at h
  by_cases hr : (lookupKey s.recipeNodes name).isSome
  · rw [if_pos hr] at h
    exact absurd h (by simp)
  · rw [if_neg hr] at h
    cases hg : lookupKey game.recipes name with
    | none => rw [hg] at h; exact absurd h (by simp)
    | some recipe =>
        rw [hg] at h
        simp only [Option.some.injEq] at h
        have hlook : lookupKey s.recipeNodes name = none := by
          cases hl : lookupKey s.recipeNodes name with
          | none => rfl
          | some v => rw [hl] at hr; exact absurd rfl hr
        have hwfname : recipe.name = name := hwf (name, recipe) (lookupKey_mem hg)
        have h0 : RecipeCtx game recipe s.nextId
            ({ nextId := s.nextId + 1,
               nodes := s.nodes ++ [mkRecipeNode s.nextId recipe],
               recipeNodes := (recipe.name, s.nextId) :: s.recipeNodes,
               thingNodes := s.thingNodes }, ([s.nodes.length] : List Nat)) := by
          refine ⟨inv_pushRecipe hinv hlook hg hwfname, mkRecipeNode s.nextId recipe,
            List.mem_append_right _ (List.mem_singleton_self _), rfl, rfl, rfl⟩
        have hg2 : lookupKey game.recipes recipe.name = some recipe := by
          rw [hwfname]
          exact hg
        have h1 := foldl_preserve (addIngredientStep s.nextId) recipe.ingredients _ h0
          (fun acc ing hmem hP => recipeCtx_ingredientStep hg2 acc ing hmem hP)
        have h2 := foldl_preserve (addProductStep s.nextId) recipe.products _ h1
          (fun acc ing hmem hP => recipeCtx_productStep hg2 acc ing hmem hP)
        rw [h] at h2
        exact h2.1

/-! ### The positioning phase only moves nodes: the invariant transfers -/

/-- The structural content of a node — everything except its position. -/
def strip (n : VNode) : Nat × NodeContent × List Nat × List Nat :=
  (n.id, n.content, n.leftNeighbors, n.rightNeighbors)

theorem set_getElemQ_self {α : Type} {l : List α} {i : Nat} {a : α}
    (h : l[i]? = some a) : l.set i a = l := by
  induction l generalizing i with
  | nil => exact absurd h (by simp)
  | cons x t ih =>
      cases i with
      | zero =>
          simp only [List.getElem?_cons_zero, Option.some.injEq] at h
          rw [← h]
          rfl
      | succ k =>
          simp only [List.getElem?_cons_succ] at h
          rw [List.set_cons_succ, ih h]

theorem setPosAt_strip (ns : List VNode) (i : Nat) (l t : ℚ) :
    (setPosAt ns i l t).map strip = ns.map strip := by
  unfold setPosAt
  cases h : ns[i]? with
  | none => rfl
  | some n =>
      rw [List.map_set]
      have hmem : (ns.map strip)[i]? = some (strip n) := by
        rw [List.getElem?_map, h]
        rfl
      have hstr : strip { n with left := l, top := t } = strip n := rfl
      rw [hstr, set_getElemQ_self hmem]

theorem assignPositions_strip {width : ℚ} {sizes : Nat → ℚ × ℚ} {s : St}
    {toPos : List Nat} {s2 : St} (h : assignPositions width sizes s toPos = some s2) :
    s2.nodes.map strip = s.nodes.map strip ∧ s2.nextId = s.nextId ∧
    s2.recipeNodes = s.recipeNodes ∧ s2.thingNodes = s.thingNodes := by
  induction toPos generalizing s with
  | nil =>
      obtain rfl : s = s2 := (Option.some.injEq _ _).mp h
      exact ⟨rfl, rfl, rfl, rfl⟩
  | cons i rest ih =>
      unfold assignPositions at h
      rw [List.foldlM_cons] at h
      cases hstep : positionNode width sizes s i with
      | none => rw [hstep] at h; exact absurd h (by simp)
      | some s1 =>
          rw [hstep] at h
          obtain ⟨l, t, rfl⟩ := positionNode_shape hstep
          obtain ⟨h1, h2, h3, h4⟩ := ih h
          exact ⟨by rw [h1]; exact setPosAt_strip _ _ _ _, h2, h3, h4⟩

theorem exists_strip_iff {ns ms : List VNode} (h : ms.map strip = ns.map strip)
    (P : Nat × NodeContent × List Nat × List Nat → Prop) :
    (∃ p ∈ ms, P (strip p)) ↔ ∃ n ∈ ns, P (strip n) := by
  constructor
  · rintro ⟨p, hp, hP⟩
    have : strip p ∈ ns.map strip := h ▸ List.mem_map_of_mem strip hp
    obtain ⟨n, hn, heq⟩ := List.mem_map.mp this
    exact ⟨n, hn, heq.symm ▸ hP⟩
  · rintro ⟨n, hn, hP⟩
    have : strip n ∈ ms.map strip := by
      rw [h]
      exact List.mem_map_of_mem strip hn
    obtain ⟨p, hp, heq⟩ := List.mem_map.mp this
    exact ⟨p, hp, heq ▸ hP⟩

theorem mem_strip_of_mem {ns ms : List VNode} (h : ms.map strip = ns.map strip)
    {p : VNode} (hp : p ∈ ms) : ∃ n ∈ ns, strip n = strip p := by
  have : strip p ∈ ns.map strip := h ▸ List.mem_map_of_mem strip hp
  exact List.mem_map.mp this

theorem strip_inj {a b : VNode} (h : strip a = strip b) :
    a.id = b.id ∧ a.content = b.content ∧
    a.leftNeighbors = b.leftNeighbors ∧ a.rightNeighbors = b.rightNeighbors := by
  unfold strip at h
  obtain ⟨h1, h2⟩ := Prod.mk.injEq .. ▸ h
  obtain ⟨h3, h4⟩ := Prod.mk.injEq .. ▸ h2
  obtain ⟨h5, h6⟩ := Prod.mk.injEq .. ▸ h4
  exact ⟨h1, h3, h5, h6⟩

/-- The invariant only reads the structural content, so it transfers across
position-only changes. -/
theorem inv_of_strip {game : Game} {s s2 : St}
    (hstrip : s2.nodes.map strip = s.nodes.map strip)
    (hn : s2.nextId = s.nextId) (hr : s2.recipeNodes = s.recipeNodes)
    (ht : s2.thingNodes = s.thingNodes) (hinv : Inv game s) : Inv game s2 := by
  have hmapid : s2.nodes.map VNode.id = s.nodes.map VNode.id := by
    have e1 : s2.nodes.map VNode.id = (s2.nodes.map strip).map Prod.fst := by
      rw [List.map_map]
      rfl
    have e2 : s.nodes.map VNode.id = (s.nodes.map strip).map Prod.fst := by
      rw [List.map_map]
      rfl
    rw [e1, e2, hstrip]
  constructor
  · rw [hmapid]
    exact hinv.nodupIds
  · intro p hp
    obtain ⟨n, hnmem, hs⟩ := mem_strip_of_mem hstrip hp
    obtain ⟨h1, _, _, _⟩ := strip_inj hs
    rw [← h1, hn]
    exact hinv.idsLt n hnmem
  · intro p hp m hm
    obtain ⟨n, hnmem, hs⟩ := mem_strip_of_mem hstrip hp
    obtain ⟨_, _, h3, h4⟩ := strip_inj hs
    rw [← h3, ← h4] at hm
    obtain ⟨q, hq, hqid⟩ := hinv.noDangling n hnmem m hm
    obtain ⟨q2, hq2, hs2⟩ := mem_strip_of_mem hstrip.symm hq
    obtain ⟨hq1, _, _, _⟩ := strip_inj hs2
    exact ⟨q2, hq2, by rw [hq1]; exact hqid⟩
  · intro a2 ha2 b2 hb2
    obtain ⟨a, ha, hsa⟩ := mem_strip_of_mem hstrip ha2
    obtain ⟨b, hb, hsb⟩ := mem_strip_of_mem hstrip hb2
    obtain ⟨ha1, _, ha3, ha4⟩ := strip_inj hsa
    obtain ⟨hb1, _, hb3, hb4⟩ := strip_inj hsb
    rw [← ha4, ← hb3, ← ha1, ← hb1]
    exact hinv.sym a ha b hb
  · intro name tid
    rw [ht]
    refine (hinv.thIdx name tid).trans ?_
    exact (exists_strip_iff hstrip (fun x => x.1 = tid ∧ x.2.1.kind = NodeKind.thing ∧
      x.2.1.name = name)).symm
  · intro name rid
    rw [hr]
    refine (hinv.recIdx name rid).trans ?_
    exact (exists_strip_iff hstrip (fun x => x.1 = rid ∧ x.2.1.kind = NodeKind.recipe ∧
      x.2.1.name = name)).symm
  · intro p hp hk
    obtain ⟨n, hnmem, hs⟩ := mem_strip_of_mem hstrip hp
    obtain ⟨_, h2, h3, h4⟩ := strip_inj hs
    rw [← h3, ← h4]
    exact hinv.thingDeg n hnmem (by rw [h2]; exact hk)
  · intro p hp hk
    obtain ⟨n, hnmem, hs⟩ := mem_strip_of_mem hstrip hp
    obtain ⟨_, h2, h3, h4⟩ := strip_inj hs
    obtain ⟨r, hrl, hcond⟩ := hinv.recNbr n hnmem (by rw [h2]; exact hk)
    refine ⟨r, by rw [h2] at hrl; exact hrl, ?_⟩
    intro m hm q2 hq2 hq2id
    rw [← h3, ← h4] at hm
    obtain ⟨q, hq, hsq⟩ := mem_strip_of_mem hstrip hq2
    obtain ⟨hq1, hqc, _, _⟩ := strip_inj hsq
    obtain ⟨hc1, hc2⟩ := hcond m hm q hq (by rw [hq1]; exact hq2id)
    exact ⟨by rw [← hqc]; exact hc1, by rw [← hqc]; exact hc2⟩

/-- The complete `addRecipe` (topology plus positioning) preserves the
invariant. -/
theorem addRecipe_inv {game : Game} {s : St} {name : String} {width : ℚ}
    {sizes : Nat → ℚ × ℚ} {s2 : St} (hwf : GameWF game) (hinv : Inv game s)
    (h : addRecipe game width sizes s name = some s2) : Inv game s2 := by
  cases htopo : addRecipeTopo game s name with
  | none =>
      unfold addRecipe at h
      rw [htopo] at h
      exact absurd h (by simp)
  | some p =>
      obtain ⟨s1, toPos⟩ := p
      have h2 : assignPositions width sizes s1 toPos = some s2 := by
        unfold addRecipe at h
        rw [htopo] at h
        exact h
      obtain ⟨hstrip, hn, hr, ht⟩ := assignPositions_strip h2
      exact inv_of_strip hstrip hn hr ht (addRecipeTopo_inv hwf hinv htopo)

/-! ### Removal: the unlink loops complete the paired deletion -/

theorem jsSpliceRemove_of_mem {l : List Nat} {x : Nat} (h : x ∈ l) :
    jsSpliceRemove l x = l.erase x := by
  unfold jsSpliceRemove
  rw [if_pos h]

theorem filterOut_eq_nil {x : Nat} {l : List Nat} :
    filterOut x l = [] ↔ ∀ m ∈ l, m = x := by
  induction l with
  | nil => simp [filterOut]
  | cons y t ih =>
      by_cases hy : y = x
      · subst hy
        simp only [filterOut, eq_self_iff_true, if_true]
        rw [ih]
        constructor
        · intro h m hm
          rcases List.mem_cons.mp hm with rfl | hm2
          · rfl
          · exact h m hm2
        · intro h m hm
          exact h m (List.mem_cons_of_mem _ hm)
      · simp only [filterOut, if_neg hy]
        constructor
        · intro h
          exact absurd h (by simp)
        · intro h
          exact absurd (h y (List.mem_cons_self _ _)) hy

theorem eraseKey_cons {α : Type} (k0 : String) (v0 : α) (rest : List (String × α))
    (k : String) :
    eraseKey ((k0, v0) :: rest) k
      = if k0 = k then eraseKey rest k else (k0, v0) :: eraseKey rest k := by
  by_cases h : k0 = k
  · rw [if_pos h]
    simp [eraseKey, h]
  · rw [if_neg h]
    simp [eraseKey, h]

theorem lookup_eraseKey {α : Type} (l : List (String × α)) (k k2 : String) :
    lookupKey (eraseKey l k) k2 = if k2 = k then none else lookupKey l k2 := by
  induction l with
  | nil =>
      by_cases h : k2 = k <;> simp [eraseKey, lookupKey, h]
  | cons p rest ih =>
      obtain ⟨k0, v0⟩ := p
      rw [eraseKey_cons]
      by_cases hk : k0 = k
      · rw [if_pos hk, ih]
        by_cases h2 : k2 = k
        · rw [if_pos h2, if_pos h2]
        · rw [if_neg h2, if_neg h2]
          have hne : ¬ (k0 = k2) := fun hc => h2 (hc.symm.trans hk)
          show lookupKey rest k2 = lookupKey ((k0, v0) :: rest) k2
          simp [lookupKey, hne]
      · rw [if_neg hk]
        by_cases h0 : k0 = k2
        · have h2 : ¬ k2 = k := fun hc => hk (h0.trans hc)
          rw [if_neg h2]
          simp [lookupKey, h0]
        · have hL : lookupKey ((k0, v0) :: eraseKey rest k) k2
              = lookupKey (eraseKey rest k) k2 := by
            simp [lookupKey, h0]
          rw [hL, ih]
          by_cases h2 : k2 = k
          · rw [if_pos h2, if_pos h2]
          · rw [if_neg h2, if_neg h2]
            simp [lookupKey, h0]

theorem eraseIdx_map {α β : Type} (f : α → β) :
    ∀ (l : List α) (i : Nat), (l.map f).eraseIdx i = (l.eraseIdx i).map f := by
  intro l
  induction l with
  | nil => intro i; rfl
  | cons x t ih =>
      intro i
      cases i with
      | zero => rfl
      | succ k =>
          simp only [List.map_cons, List.eraseIdx_cons_succ, List.map_cons, ih]

/-- The left-unlink loop erases, from every node's `rightNeighbors`, one
occurrence of `x` per occurrence of that node's id in the loop list. -/
theorem unlinkLeft_foldl (x : Nat) :
    ∀ (L : List Nat) (ns : List VNode),
    (∀ n ∈ ns, L.count n.id ≤ n.rightNeighbors.count x) →
    unlinkLeftLoop x L ns = ns.map (fun n =>
      { n with rightNeighbors := eraseCounted (L.count n.id) x n.rightNeighbors }) := by
  intro L
  induction L with
  | nil =>
      intro ns _
      have he : (fun n : VNode =>
          { n with rightNeighbors := eraseCounted (List.count n.id []) x n.rightNeighbors })
          = fun n => n := funext fun n => rfl
      rw [he, List.map_id']
      rfl
  | cons lid L2 ih =>
      intro ns hsub
      have hstep : unlinkLeftLoop x (lid :: L2) ns = unlinkLeftLoop x L2
          (updNode lid (fun n =>
            { n with rightNeighbors := jsSpliceRemove n.rightNeighbors x }) ns) := rfl
      rw [hstep]
      have hsub2 : ∀ n2 ∈ updNode lid (fun n =>
          { n with rightNeighbors := jsSpliceRemove n.rightNeighbors x }) ns,
          L2.count n2.id ≤ n2.rightNeighbors.count x := by
        intro n2 hn2
        obtain ⟨n, hn, rfl⟩ := List.mem_map.mp hn2
        by_cases hl : n.id = lid
        · rw [if_pos hl]
          have hcc : (lid :: L2).count n.id = L2.count n.id + 1 := by
            rw [List.count_cons, hl]
            simp
          have hc : L2.count n.id + 1 ≤ n.rightNeighbors.count x := by
            have h3 := hsub n hn
            rw [hcc] at h3
            exact h3
          have hx : x ∈ n.rightNeighbors := by
            rw [← List.count_pos_iff]
            omega
          show L2.count n.id ≤ (jsSpliceRemove n.rightNeighbors x).count x
          rw [jsSpliceRemove_of_mem hx, List.count_erase_self]
          omega
        · rw [if_neg hl]
          have hcc : (lid :: L2).count n.id = L2.count n.id := by
            rw [List.count_cons]
            simp [hl, Ne.symm hl]
          have h3 := hsub n hn
          rw [hcc] at h3
          exact h3
      rw [ih _ hsub2]
      unfold updNode
      rw [List.map_map]
      apply List.map_congr_left
      intro n hn
      simp only [Function.comp]
      by_cases hl : n.id = lid
      · rw [if_pos hl]
        have hcc : (lid :: L2).count n.id = L2.count n.id + 1 := by
          rw [List.count_cons, hl]
          simp
        have hc : L2.count n.id + 1 ≤ n.rightNeighbors.count x := by
          have h3 := hsub n hn
          rw [hcc] at h3
          exact h3
        have hx : x ∈ n.rightNeighbors := by
          rw [← List.count_pos_iff]
          omega
        rw [jsSpliceRemove_of_mem hx, hcc]
        rfl
      · rw [if_neg hl]
        have hcc : (lid :: L2).count n.id = L2.count n.id := by
          rw [List.count_cons]
          simp [hl, Ne.symm hl]
        rw [hcc]

/-- The right-unlink loop, mirrored onto `leftNeighbors`. -/
theorem unlinkRight_foldl (x : Nat) :
    ∀ (L : List Nat) (ns : List VNode),
    (∀ n ∈ ns, L.count n.id ≤ n.leftNeighbors.count x) →
    unlinkRightLoop x L ns = ns.map (fun n =>
      { n with leftNeighbors := eraseCounted (L.count n.id) x n.leftNeighbors }) := by
  intro L
  induction L with
  | nil =>
      intro ns _
      have he : (fun n : VNode =>
          { n with leftNeighbors := eraseCounted (List.count n.id []) x n.leftNeighbors })
          = fun n => n := funext fun n => rfl
      rw [he, List.map_id']
      rfl
  | cons lid L2 ih =>
      intro ns hsub
      have hstep : unlinkRightLoop x (lid :: L2) ns = unlinkRightLoop x L2
          (updNode lid (fun n =>
            { n with leftNeighbors := jsSpliceRemove n.leftNeighbors x }) ns) := rfl
      rw [hstep]
      have hsub2 : ∀ n2 ∈ updNode lid (fun n =>
          { n with leftNeighbors := jsSpliceRemove n.leftNeighbors x }) ns,
          L2.count n2.id ≤ n2.leftNeighbors.count x := by
        intro n2 hn2
        obtain ⟨n, hn, rfl⟩ := List.mem_map.mp hn2
        by_cases hl : n.id = lid
        · rw [if_pos hl]
          have hcc : (lid :: L2).count n.id = L2.count n.id + 1 := by
            rw [List.count_cons, hl]
            simp
          have hc : L2.count n.id + 1 ≤ n.leftNeighbors.count x := by
            have h3 := hsub n hn
            rw [hcc] at h3
            exact h3
          have hx : x ∈ n.leftNeighbors := by
            rw [← List.count_pos_iff]
            omega
          show L2.count n.id ≤ (jsSpliceRemove n.leftNeighbors x).count x
          rw [jsSpliceRemove_of_mem hx, List.count_erase_self]
          omega
        · rw [if_neg hl]
          have hcc : (lid :: L2).count n.id = L2.count n.id := by
            rw [List.count_cons]
            simp [hl, Ne.symm hl]
          have h3 := hsub n hn
          rw [hcc] at h3
          exact h3
      rw [ih _ hsub2]
      unfold updNode
      rw [List.map_map]
      apply List.map_congr_left
      intro n hn
      simp only [Function.comp]
      by_cases hl : n.id = lid
      · rw [if_pos hl]
        have hcc : (lid :: L2).count n.id = L2.count n.id + 1 := by
          rw [List.count_cons, hl]
          simp
        have hc : L2.count n.id + 1 ≤ n.leftNeighbors.count x := by
          have h3 := hsub n hn
          rw [hcc] at h3
          exact h3
        have hx : x ∈ n.leftNeighbors := by
          rw [← List.count_pos_iff]
          omega
        rw [jsSpliceRemove_of_mem hx, hcc]
        rfl
      · rw [if_neg hl]
        have hcc : (lid :: L2).count n.id = L2.count n.id := by
          rw [List.count_cons]
          simp [hl, Ne.symm hl]
        rw [hcc]

/-! ### Splitting the node sequence around a removed entry -/

theorem mem_middle_of_ne {l l1 l2 : List VNode} {a : VNode}
    (hdec : l = l1 ++ a :: l2) {n : VNode} (hn : n ∈ l) (hne : n.id ≠ a.id) :
    n ∈ l1 ++ l2 := by
  rw [hdec] at hn
  rcases List.mem_append.mp hn with h1 | h2
  · exact List.mem_append_left _ h1
  · rcases List.mem_cons.mp h2 with rfl | h3
    · exact absurd rfl hne
    · exact List.mem_append_right _ h3

theorem id_ne_of_mem_middle {l l1 l2 : List VNode} {a : VNode}
    (hnd : (l.map VNode.id).Nodup) (hdec : l = l1 ++ a :: l2) {n : VNode}
    (hn : n ∈ l1 ++ l2) : n.id ≠ a.id := by
  have hnd2 : ((l1 ++ a :: l2).map VNode.id).Nodup := by
    rw [← hdec]
    exact hnd
  rw [List.map_append, List.map_cons] at hnd2
  obtain ⟨hL, hR, hdisj⟩ := List.nodup_append.mp hnd2
  intro heq
  rcases List.mem_append.mp hn with h1 | h2
  · have hmm : n.id ∈ l1.map VNode.id := List.mem_map_of_mem _ h1
    rw [heq] at hmm
    exact hdisj hmm (List.mem_cons_self _ _)
  · have hmm : n.id ∈ l2.map VNode.id := List.mem_map_of_mem _ h2
    rw [heq] at hmm
    exact (List.nodup_cons.mp hR).1 hmm

theorem eraseIdx_decomp {l : List VNode} {i : Nat} {a : VNode}
    (h : l[i]? = some a) :
    l = l.take i ++ a :: l.drop (i + 1) ∧
      l.eraseIdx i = l.take i ++ l.drop (i + 1) := by
  have hi : i < l.length := by
    by_contra hge
    rw [List.getElem?_eq_none (Nat.le_of_not_lt hge)] at h
    exact Option.noConfusion h
  have hget : l[i] = a := by
    have h2 := List.getElem?_eq_getElem hi
    rw [h2] at h
    exact Option.some.inj h
  constructor
  · conv_lhs => rw [← List.take_append_drop i l]
    rw [List.drop_eq_getElem_cons hi, hget]
  · exact List.eraseIdx_eq_take_drop_succ l i

theorem mem_eraseIdx_of_ne_id {l : List VNode} {i : Nat} {a : VNode}
    (h : l[i]? = some a) {n : VNode} (hn : n ∈ l) (hne : n.id ≠ a.id) :
    n ∈ l.eraseIdx i := by
  obtain ⟨hdec, herase⟩ := eraseIdx_decomp h
  rw [herase]
  exact mem_middle_of_ne hdec hn hne

theorem id_ne_of_mem_eraseIdx {l : List VNode} {i : Nat} {a : VNode}
    (hnd : (l.map VNode.id).Nodup) (h : l[i]? = some a) {n : VNode}
    (hn : n ∈ l.eraseIdx i) : n.id ≠ a.id := by
  obtain ⟨hdec, herase⟩ := eraseIdx_decomp h
  rw [herase] at hn
  exact id_ne_of_mem_middle hnd hdec hn

theorem eraseP_decomp {l : List VNode} (hnd : (l.map VNode.id).Nodup) {tn : VNode}
    (htn : tn ∈ l) :
    ∃ l1 l2, l = l1 ++ tn :: l2 ∧
      l.eraseP (fun n => n.id = tn.id) = l1 ++ l2 := by
  have hpa : (fun n : VNode => decide (n.id = tn.id)) tn = true := by simp
  obtain ⟨b, l1, l2, hnl1, hpb, hl, herase⟩ :=
    @List.exists_of_eraseP VNode (fun n => decide (n.id = tn.id)) l tn htn hpa
  have hbid : b.id = tn.id := of_decide_eq_true hpb
  have hbmem : b ∈ l := by
    rw [hl]
    exact List.mem_append_right _ (List.mem_cons_self _ _)
  have hbtn : b = tn := id_inj hnd hbmem htn hbid
  subst hbtn
  exact ⟨l1, l2, hl, herase⟩

/-! ### One step of the orphan-pruning cascade (lines 200-206) -/

theorem cascadeStep_spec {game : Game} {t : St} (nm : String) (h : Inv0 game t) :
    Inv0 game (cascadeStep t nm) ∧
    List.Sublist (cascadeStep t nm).nodes t.nodes ∧
    (∀ n ∈ t.nodes,
      ((∃ p ∈ (cascadeStep t nm).nodes, p.id = n.id) ↔
        ¬(n.content.kind = NodeKind.thing ∧ n.leftNeighbors = [] ∧
          n.rightNeighbors = [] ∧ n.content.name = nm))) := by
  cases hl : lookupKey t.thingNodes nm with
  | none =>
      have heq : cascadeStep t nm = t := by
        unfold cascadeStep
        rw [hl]
      rw [heq]
      refine ⟨h, List.Sublist.refl _, ?_⟩
      intro n hn
      constructor
      · intro _ hbad
        obtain ⟨hk, hle, hre, hnm⟩ := hbad
        have h1 := (h.thIdx nm n.id).mpr ⟨n, hn, rfl, hk, hnm⟩
        rw [hl] at h1
        exact Option.noConfusion h1
      · intro _
        exact ⟨n, hn, rfl⟩
  | some tid =>
      obtain ⟨tn, htn, htid, htk, htname⟩ := (h.thIdx nm tid).mp hl
      subst htid
      have hfind : t.nodes.find? (fun n => n.id = tn.id) = some tn :=
        find_id_of_nodup h.nodupIds htn
      by_cases hemp : tn.leftNeighbors = [] ∧ tn.rightNeighbors = []
      · obtain ⟨l1, l2, hdec, herase⟩ := eraseP_decomp h.nodupIds htn
        have heq : cascadeStep t nm = { t with
            nodes := l1 ++ l2,
            thingNodes := eraseKey t.thingNodes nm } := by
          unfold cascadeStep
          simp only [hl, hfind]
          rw [if_pos hemp, herase]
        rw [heq]
        have hsub : List.Sublist (l1 ++ l2) t.nodes := by
          rw [← herase]
          exact List.eraseP_sublist _
        have hmem2 : ∀ n ∈ l1 ++ l2, n ∈ t.nodes := fun n hn => hsub.subset hn
        have hne2 : ∀ n ∈ l1 ++ l2, n.id ≠ tn.id := fun n hn =>
          id_ne_of_mem_middle h.nodupIds hdec hn
        have hkeep : ∀ n ∈ t.nodes, n.id ≠ tn.id → n ∈ l1 ++ l2 := fun n hn hne =>
          mem_middle_of_ne hdec hn hne
        have hno_nbr : ∀ n ∈ t.nodes, tn.id ∉ n.leftNeighbors ∧ tn.id ∉ n.rightNeighbors := by
          intro n hn
          constructor
          · apply List.count_eq_zero.mp
            rw [← h.sym tn htn n hn, hemp.2]
            rfl
          · apply List.count_eq_zero.mp
            rw [h.sym n hn tn htn, hemp.1]
            rfl
        refine ⟨?_, hsub, ?_⟩
        · refine ⟨?_, ?_, ?_, ?_, ?_, ?_, ?_⟩
          · exact h.nodupIds.sublist (hsub.map VNode.id)
          · intro n hn
            exact h.idsLt n (hmem2 n hn)
          · intro n hn m hm
            obtain ⟨p, hp, hpid⟩ := h.noDangling n (hmem2 n hn) m hm
            have hmne : m ≠ tn.id := by
              rcases List.mem_append.mp hm with h1 | h2
              · intro hc
                exact (hno_nbr n (hmem2 n hn)).1 (hc ▸ h1)
              · intro hc
                exact (hno_nbr n (hmem2 n hn)).2 (hc ▸ h2)
            refine ⟨p, hkeep p hp ?_, hpid⟩
            rw [hpid]
            exact hmne
          · intro a ha b hb
            exact h.sym a (hmem2 a ha) b (hmem2 b hb)
          · intro name2 tid2
            show lookupKey (eraseKey t.thingNodes nm) name2 = some tid2 ↔ _
            rw [lookup_eraseKey]
            by_cases hname : name2 = nm
            · rw [if_pos hname]
              constructor
              · intro hcontra
                exact Option.noConfusion hcontra
              · rintro ⟨n, hn2, hid, hk, hnm2⟩
                have h1 := (h.thIdx name2 n.id).mpr ⟨n, hmem2 n hn2, rfl, hk, hnm2⟩
                rw [hname, hl] at h1
                exact absurd (Option.some.inj h1).symm (hne2 n hn2)
            · rw [if_neg hname, h.thIdx name2 tid2]
              constructor
              · rintro ⟨n, hn2, hid, hk, hnm2⟩
                have hne3 : n.id ≠ tn.id := by
                  intro hc
                  have hntn : n = tn := id_inj h.nodupIds hn2 htn hc
                  apply hname
                  rw [← hnm2, hntn, htname]
                exact ⟨n, hkeep n hn2 hne3, hid, hk, hnm2⟩
              · rintro ⟨n, hn2, hid, hk, hnm2⟩
                exact ⟨n, hmem2 n hn2, hid, hk, hnm2⟩
          · intro name2 rid2
            show lookupKey t.recipeNodes name2 = some rid2 ↔ _
            rw [h.recIdx name2 rid2]
            constructor
            · rintro ⟨n, hn2, hid, hk, hnm2⟩
              have hne3 : n.id ≠ tn.id := by
                intro hc
                have hntn : n = tn := id_inj h.nodupIds hn2 htn hc
                rw [hntn, htk] at hk
                exact absurd hk (by decide)
              exact ⟨n, hkeep n hn2 hne3, hid, hk, hnm2⟩
            · rintro ⟨n, hn2, hid, hk, hnm2⟩
              exact ⟨n, hmem2 n hn2, hid, hk, hnm2⟩
          · intro n hn hk
            obtain ⟨r, hr, hcond⟩ := h.recNbr n (hmem2 n hn) hk
            exact ⟨r, hr, fun m hm p hp hpid => hcond m hm p (hmem2 p hp) hpid⟩
        · intro n hn
          by_cases hid : n.id = tn.id
          · have hn_eq : n = tn := id_inj h.nodupIds hn htn hid
            subst hn_eq
            constructor
            · intro hex hbad
              obtain ⟨p, hp, hpid⟩ := hex
              exact hne2 p hp hpid
            · intro hnbad
              exact absurd ⟨htk, hemp.1, hemp.2, htname⟩ hnbad
          · constructor
            · intro _ hbad
              obtain ⟨hk, hle, hre, hnm2⟩ := hbad
              have h1 := (h.thIdx nm n.id).mpr ⟨n, hn, rfl, hk, hnm2⟩
              rw [hl] at h1
              exact hid (Option.some.inj h1).symm
            · intro _
              exact ⟨n, hkeep n hn hid, rfl⟩
      · have heq : cascadeStep t nm = t := by
          unfold cascadeStep
          simp only [hl, hfind]
          rw [if_neg hemp]
        rw [heq]
        refine ⟨h, List.Sublist.refl _, ?_⟩
        intro n hn
        constructor
        · intro _ hbad
          obtain ⟨hk, hle, hre, hnm2⟩ := hbad
          have h1 := (h.thIdx nm n.id).mpr ⟨n, hn, rfl, hk, hnm2⟩
          rw [hl] at h1
          have hntn : n = tn := id_inj h.nodupIds hn htn (Option.some.inj h1).symm
          refine hemp ⟨?_, ?_⟩
          · rw [← hntn]
            exact hle
          · rw [← hntn]
            exact hre
        · intro _
          exact ⟨n, hn, rfl⟩

/-! ### The full cascade over a list of thing names -/

theorem cascade_fold_eq (ings : List Ingredient) (t : St) :
    ings.foldl (fun t2 ing => cascadeStep t2 ing.thing.name) t
      = (ings.map (fun x => x.thing.name)).foldl cascadeStep t := by
  induction ings generalizing t with
  | nil => rfl
  | cons a l ih =>
      simp only [List.foldl_cons, List.map_cons]
      exact ih _

theorem cascade_foldl_spec {game : Game} :
    ∀ (names : List String) (t : St), Inv0 game t →
    Inv0 game (names.foldl cascadeStep t) ∧
    List.Sublist (names.foldl cascadeStep t).nodes t.nodes ∧
    (∀ n ∈ t.nodes,
      ((∃ p ∈ (names.foldl cascadeStep t).nodes, p.id = n.id) ↔
        ¬(n.content.kind = NodeKind.thing ∧ n.leftNeighbors = [] ∧
          n.rightNeighbors = [] ∧ n.content.name ∈ names))) := by
  intro names
  induction names with
  | nil =>
      intro t h
      refine ⟨h, List.Sublist.refl _, ?_⟩
      intro n hn
      constructor
      · intro _ hbad
        exact absurd hbad.2.2.2 (List.not_mem_nil _)
      · intro _
        exact ⟨n, hn, rfl⟩
  | cons nm names2 ih =>
      intro t h
      obtain ⟨h1, hsub1, hiff1⟩ := cascadeStep_spec nm h
      have hfold : (nm :: names2).foldl cascadeStep t
          = names2.foldl cascadeStep (cascadeStep t nm) := rfl
      rw [hfold]
      obtain ⟨h2, hsub2, hiff2⟩ := ih (cascadeStep t nm) h1
      refine ⟨h2, hsub2.trans hsub1, ?_⟩
      intro n hn
      by_cases hbad1 : n.content.kind = NodeKind.thing ∧ n.leftNeighbors = [] ∧
          n.rightNeighbors = [] ∧ n.content.name = nm
      · have hnot : ¬ ∃ p ∈ (cascadeStep t nm).nodes, p.id = n.id :=
          fun hex => (hiff1 n hn).mp hex hbad1
        constructor
        · intro hex hbadc
          obtain ⟨p, hp, hpid⟩ := hex
          exact hnot ⟨p, hsub2.subset hp, hpid⟩
        · intro hnbadc
          refine absurd ⟨hbad1.1, hbad1.2.1, hbad1.2.2.1, ?_⟩ hnbadc
          rw [hbad1.2.2.2]
          exact List.mem_cons_self _ _
      · have hsurv1 : ∃ p ∈ (cascadeStep t nm).nodes, p.id = n.id := (hiff1 n hn).mpr hbad1
        obtain ⟨p, hp, hpid⟩ := hsurv1
        have hpn : p = n := id_inj h.nodupIds (hsub1.subset hp) hn hpid
        have hp2 : n ∈ (cascadeStep t nm).nodes := by
          rw [← hpn]
          exact hp
        have hiff2n := hiff2 n hp2
        constructor
        · intro hex hbadc
          obtain ⟨hk, hle, hre, hnmem⟩ := hbadc
          rcases List.mem_cons.mp hnmem with heq2 | hmem2
          · exact hbad1 ⟨hk, hle, hre, heq2⟩
          · exact (hiff2n.mp hex) ⟨hk, hle, hre, hmem2⟩
        · intro hnbadc
          apply hiff2n.mpr
          rintro ⟨hk, hle, hre, hmem2⟩
          exact hnbadc ⟨hk, hle, hre, List.mem_cons_of_mem _ hmem2⟩

/-! ### The removal operation analysed end to end -/

/-- With the entry assertion discharged, `removeRecipeNode` is its body. -/
theorem removeRecipeNode_of_get {game : Game} {s : St} {i : Nat} {rnode : VNode}
    (hget : s.nodes[i]? = some rnode) :
    removeRecipeNode game s i =
      match lookupKey game.recipes rnode.content.name with
      | none => RemoveResult.crashed
          { s with
            nodes := (unlinkRightLoop rnode.id
                (((unlinkLeftLoop rnode.id rnode.leftNeighbors s.nodes).find?
                    (fun n => n.id = rnode.id)).getD rnode).rightNeighbors
                (unlinkLeftLoop rnode.id rnode.leftNeighbors s.nodes)).eraseIdx i,
            recipeNodes := eraseKey s.recipeNodes rnode.content.name }
      | some recipe =>
          RemoveResult.ok
            ((recipe.ingredients ++ recipe.products).foldl
              (fun t ing => cascadeStep t ing.thing.name)
              { s with
                nodes := (unlinkRightLoop rnode.id
                    (((unlinkLeftLoop rnode.id rnode.leftNeighbors s.nodes).find?
                        (fun n => n.id = rnode.id)).getD rnode).rightNeighbors
                    (unlinkLeftLoop rnode.id rnode.leftNeighbors s.nodes)).eraseIdx i,
                recipeNodes := eraseKey s.recipeNodes rnode.content.name }) := by
  unfold removeRecipeNode
  rw [hget]

theorem map_strip_ids (x : Nat) (l : List VNode) :
    (l.map (fun n =>
      { n with leftNeighbors := filterOut x n.leftNeighbors,
               rightNeighbors := filterOut x n.rightNeighbors })).map VNode.id
      = l.map VNode.id := by
  rw [List.map_map]
  apply List.map_congr_left
  intro n hn
  rfl

/-- The state between the unlink/splice phase and the cascade satisfies
everything but the thing-degree constraint. -/
theorem inv0_after_unlink {game : Game} {s : St} {i : Nat} {rnode : VNode}
    (hinv : Inv game s) (hget : s.nodes[i]? = some rnode)
    (hkind : rnode.content.kind = NodeKind.recipe) :
    Inv0 game { s with
      nodes := (s.nodes.eraseIdx i).map (fun n =>
        { n with leftNeighbors := filterOut rnode.id n.leftNeighbors,
                 rightNeighbors := filterOut rnode.id n.rightNeighbors }),
      recipeNodes := eraseKey s.recipeNodes rnode.content.name } := by
  have hmem : rnode ∈ s.nodes := mem_of_getElemQ s.nodes i rnode hget
  have hmemE : ∀ n ∈ s.nodes.eraseIdx i, n ∈ s.nodes := fun n hn =>
    (List.eraseIdx_sublist s.nodes i).subset hn
  have hneE : ∀ n ∈ s.nodes.eraseIdx i, n.id ≠ rnode.id := fun n hn =>
    id_ne_of_mem_eraseIdx hinv.nodupIds hget hn
  have hkeepE : ∀ n ∈ s.nodes, n.id ≠ rnode.id → n ∈ s.nodes.eraseIdx i :=
    fun n hn hne => mem_eraseIdx_of_ne_id hget hn hne
  have hndE : ((s.nodes.eraseIdx i).map VNode.id).Nodup :=
    hinv.nodupIds.sublist ((List.eraseIdx_sublist s.nodes i).map VNode.id)
  refine ⟨?_, ?_, ?_, ?_, ?_, ?_, ?_⟩
  · show (((s.nodes.eraseIdx i).map (fun n =>
      { n with leftNeighbors := filterOut rnode.id n.leftNeighbors,
               rightNeighbors := filterOut rnode.id n.rightNeighbors })).map VNode.id).Nodup
    rw [map_strip_ids]
    exact hndE
  · intro p hp
    obtain ⟨n, hn, rfl⟩ := List.mem_map.mp hp
    exact hinv.idsLt n (hmemE n hn)
  · intro p hp m hm
    obtain ⟨n, hn, rfl⟩ := List.mem_map.mp hp
    have hm2 : (m ∈ filterOut rnode.id n.leftNeighbors) ∨
        (m ∈ filterOut rnode.id n.rightNeighbors) := List.mem_append.mp hm
    have hmm : m ∈ n.leftNeighbors ++ n.rightNeighbors ∧ m ≠ rnode.id := by
      rcases hm2 with h1 | h2
      · obtain ⟨ha, hb⟩ := mem_filterOut.mp h1
        exact ⟨List.mem_append_left _ ha, hb⟩
      · obtain ⟨ha, hb⟩ := mem_filterOut.mp h2
        exact ⟨List.mem_append_right _ ha, hb⟩
    obtain ⟨q, hq, hqid⟩ := hinv.noDangling n (hmemE n hn) m hmm.1
    have hqne : q.id ≠ rnode.id := by
      rw [hqid]
      exact hmm.2
    exact ⟨_, List.mem_map_of_mem _ (hkeepE q hq hqne), hqid⟩
  · intro a ha b hb
    obtain ⟨n, hn, rfl⟩ := List.mem_map.mp ha
    obtain ⟨n2, hn2, rfl⟩ := List.mem_map.mp hb
    show (filterOut rnode.id n.rightNeighbors).count n2.id
      = (filterOut rnode.id n2.leftNeighbors).count n.id
    rw [count_filterOut_ne (hneE n2 hn2) n.rightNeighbors,
        count_filterOut_ne (hneE n hn) n2.leftNeighbors]
    exact hinv.sym n (hmemE n hn) n2 (hmemE n2 hn2)
  · intro name tid
    show lookupKey s.thingNodes name = some tid ↔ _
    rw [hinv.thIdx name tid]
    constructor
    · rintro ⟨n, hn, hid, hk, hnm⟩
      have hne : n.id ≠ rnode.id := by
        intro hc
        have he : n = rnode := id_inj hinv.nodupIds hn hmem hc
        rw [he, hkind] at hk
        exact absurd hk (by decide)
      exact ⟨_, List.mem_map_of_mem _ (hkeepE n hn hne), hid, hk, hnm⟩
    · rintro ⟨p, hp, hid, hk, hnm⟩
      obtain ⟨n, hn, rfl⟩ := List.mem_map.mp hp
      exact ⟨n, hmemE n hn, hid, hk, hnm⟩
  · intro name rid2
    show lookupKey (eraseKey s.recipeNodes rnode.content.name) name = some rid2 ↔ _
    rw [lookup_eraseKey]
    by_cases hname : name = rnode.content.name
    · rw [if_pos hname]
      constructor
      · intro hc
        exact Option.noConfusion hc
      · rintro ⟨p, hp, hid, hk, hnm⟩
        obtain ⟨n, hn, rfl⟩ := List.mem_map.mp hp
        have h1 := (hinv.recIdx name n.id).mpr ⟨n, hmemE n hn, rfl, hk, hnm⟩
        have h2 := (hinv.recIdx rnode.content.name rnode.id).mpr ⟨rnode, hmem, rfl, hkind, rfl⟩
        rw [hname] at h1
        rw [h1] at h2
        exact absurd (Option.some.inj h2) (hneE n hn)
    · rw [if_neg hname, hinv.recIdx name rid2]
      constructor
      · rintro ⟨n, hn, hid, hk, hnm⟩
        have hne : n.id ≠ rnode.id := by
          intro hc
          have he : n = rnode := id_inj hinv.nodupIds hn hmem hc
          apply hname
          rw [← hnm, he]
        exact ⟨_, List.mem_map_of_mem _ (hkeepE n hn hne), hid, hk, hnm⟩
      · rintro ⟨p, hp, hid, hk, hnm⟩
        obtain ⟨n, hn, rfl⟩ := List.mem_map.mp hp
        exact ⟨n, hmemE n hn, hid, hk, hnm⟩
  · intro p hp hk
    obtain ⟨n, hn, rfl⟩ := List.mem_map.mp hp
    obtain ⟨r2, hr2, hcond2⟩ := hinv.recNbr n (hmemE n hn) hk
    refine ⟨r2, hr2, ?_⟩
    intro m hm q hq hqid
    obtain ⟨q0, hq0, rfl⟩ := List.mem_map.mp hq
    have hm2 : m ∈ n.leftNeighbors ++ n.rightNeighbors := by
      rcases List.mem_append.mp hm with h1 | h2
      · have h1b : m ∈ filterOut rnode.id n.leftNeighbors := h1
        exact List.mem_append_left _ (mem_filterOut.mp h1b).1
      · have h2b : m ∈ filterOut rnode.id n.rightNeighbors := h2
        exact List.mem_append_right _ (mem_filterOut.mp h2b).1
    exact hcond2 m hm2 q0 (hmemE q0 hq0) hqid

/-- `removeRecipeNode`, called within its contract on a recipe-kind node,
preserves the invariant and prunes exactly the thing nodes orphaned by the
unlink: a thing node survives iff it keeps a neighbor besides the removed
node, every other recipe node survives with its content, and every surviving
node descends from the prior state. -/
theorem remove_spec {game : Game} {s : St} {i : Nat} {rnode : VNode} {s2 : St}
    (hinv : Inv game s)
    (hget : s.nodes[i]? = some rnode)
    (hkind : rnode.content.kind = NodeKind.recipe)
    (hok : removeRecipeNode game s i = RemoveResult.ok s2) :
    Inv game s2 ∧
    (∀ n ∈ s.nodes, n.content.kind = NodeKind.thing →
      ((∃ p ∈ s2.nodes, p.id = n.id) ↔
        ¬(filterOut rnode.id n.leftNeighbors = [] ∧
          filterOut rnode.id n.rightNeighbors = []))) ∧
    (∀ n ∈ s.nodes, n.content.kind = NodeKind.recipe → n.id ≠ rnode.id →
      ∃ p ∈ s2.nodes, p.id = n.id ∧ p.content = n.content) ∧
    (∀ p ∈ s2.nodes, p.id ≠ rnode.id ∧
      ∃ n ∈ s.nodes, n.id = p.id ∧ n.content = p.content) := by
  have hmem : rnode ∈ s.nodes := mem_of_getElemQ s.nodes i rnode hget
  obtain ⟨r, hr, hcond⟩ := hinv.recNbr rnode hmem hkind
  have hnoselfR : rnode.id ∉ rnode.rightNeighbors := by
    intro hmm
    have h1 := (hcond rnode.id (List.mem_append_right _ hmm) rnode hmem rfl).1
    rw [hkind] at h1
    exact absurd h1 (by decide)
  have hmemE : ∀ n ∈ s.nodes.eraseIdx i, n ∈ s.nodes := fun n hn =>
    (List.eraseIdx_sublist s.nodes i).subset hn
  have hneE : ∀ n ∈ s.nodes.eraseIdx i, n.id ≠ rnode.id := fun n hn =>
    id_ne_of_mem_eraseIdx hinv.nodupIds hget hn
  have hkeepE : ∀ n ∈ s.nodes, n.id ≠ rnode.id → n ∈ s.nodes.eraseIdx i :=
    fun n hn hne => mem_eraseIdx_of_ne_id hget hn hne
  have h_ns1 : unlinkLeftLoop rnode.id rnode.leftNeighbors s.nodes
      = s.nodes.map (fun n =>
          { n with rightNeighbors := filterOut rnode.id n.rightNeighbors }) := by
    rw [unlinkLeft_foldl rnode.id rnode.leftNeighbors s.nodes
      (fun n hn => le_of_eq (hinv.sym n hn rnode hmem).symm)]
    apply List.map_congr_left
    intro n hn
    rw [eraseCounted_count_eq rnode.id (rnode.leftNeighbors.count n.id) n.rightNeighbors
      (hinv.sym n hn rnode hmem)]
  have hids1 : (s.nodes.map (fun n =>
      { n with rightNeighbors := filterOut rnode.id n.rightNeighbors })).map VNode.id
      = s.nodes.map VNode.id := by
    rw [List.map_map]
    apply List.map_congr_left
    intro n hn
    rfl
  have hfind1 : (unlinkLeftLoop rnode.id rnode.leftNeighbors s.nodes).find?
      (fun n => n.id = rnode.id)
      = some { rnode with rightNeighbors := filterOut rnode.id rnode.rightNeighbors } := by
    rw [h_ns1]
    have hnd1 : ((s.nodes.map (fun n =>
        { n with rightNeighbors := filterOut rnode.id n.rightNeighbors })).map
          VNode.id).Nodup := by
      rw [hids1]
      exact hinv.nodupIds
    exact find_id_of_nodup hnd1 (List.mem_map_of_mem _ hmem)
  have hrn1R : (((unlinkLeftLoop rnode.id rnode.leftNeighbors s.nodes).find?
      (fun n => n.id = rnode.id)).getD rnode).rightNeighbors = rnode.rightNeighbors := by
    rw [hfind1]
    exact filterOut_eq_self hnoselfR
  have hyp2 : ∀ n2 ∈ s.nodes.map (fun n =>
      { n with rightNeighbors := filterOut rnode.id n.rightNeighbors }),
      rnode.rightNeighbors.count n2.id ≤ n2.leftNeighbors.count rnode.id := by
    intro n2 hn2
    obtain ⟨n, hn, rfl⟩ := List.mem_map.mp hn2
    exact le_of_eq (hinv.sym rnode hmem n hn)
  have h_ns2 : unlinkRightLoop rnode.id rnode.rightNeighbors
      (s.nodes.map (fun n =>
        { n with rightNeighbors := filterOut rnode.id n.rightNeighbors }))
      = s.nodes.map (fun n =>
          { n with leftNeighbors := filterOut rnode.id n.leftNeighbors,
                   rightNeighbors := filterOut rnode.id n.rightNeighbors }) := by
    rw [unlinkRight_foldl rnode.id rnode.rightNeighbors _ hyp2]
    rw [List.map_map]
    apply List.map_congr_left
    intro n hn
    show { n with
        leftNeighbors := eraseCounted (rnode.rightNeighbors.count n.id) rnode.id
          n.leftNeighbors,
        rightNeighbors := filterOut rnode.id n.rightNeighbors } = _
    rw [eraseCounted_count_eq rnode.id (rnode.rightNeighbors.count n.id) n.leftNeighbors
      (hinv.sym rnode hmem n hn).symm]
  rw [removeRecipeNode_of_get hget] at hok
  rw [hrn1R] at hok
  rw [h_ns1] at hok
  rw [h_ns2] at hok
  rw [eraseIdx_map] at hok
  rw [hr] at hok
  have hs2 : s2 = (r.ingredients ++ r.products).foldl
      (fun t ing => cascadeStep t ing.thing.name)
      { s with
        nodes := (s.nodes.eraseIdx i).map (fun n =>
          { n with leftNeighbors := filterOut rnode.id n.leftNeighbors,
                   rightNeighbors := filterOut rnode.id n.rightNeighbors }),
        recipeNodes := eraseKey s.recipeNodes rnode.content.name } :=
    (RemoveResult.ok.inj hok).symm
  subst hs2
  rw [cascade_fold_eq]
  have hInv0s1 := inv0_after_unlink hinv hget hkind
  obtain ⟨hc0, hcsub, hciff⟩ := cascade_foldl_spec
    ((r.ingredients ++ r.products).map (fun x => x.thing.name)) _ hInv0s1
  have hnames : ∀ n ∈ s.nodes, n.content.kind = NodeKind.thing →
      filterOut rnode.id n.leftNeighbors = [] →
      filterOut rnode.id n.rightNeighbors = [] →
      n.content.name ∈ (r.ingredients ++ r.products).map (fun x => x.thing.name) := by
    intro n hn hk hle hre
    rcases hinv.thingDeg n hn hk with hL | hR
    · have hall : ∀ m ∈ n.leftNeighbors, m = rnode.id := filterOut_eq_nil.mp hle
      obtain ⟨m, hm⟩ := List.exists_mem_of_ne_nil n.leftNeighbors hL
      have hrid : rnode.id ∈ n.leftNeighbors := by
        rw [← hall m hm]
        exact hm
      have hcnt : 0 < rnode.rightNeighbors.count n.id := by
        rw [hinv.sym rnode hmem n hn]
        exact List.count_pos_iff.mpr hrid
      have hmemr : n.id ∈ rnode.rightNeighbors := List.count_pos_iff.mp hcnt
      exact (hcond n.id (List.mem_append_right _ hmemr) n hn rfl).2
    · have hall : ∀ m ∈ n.rightNeighbors, m = rnode.id := filterOut_eq_nil.mp hre
      obtain ⟨m, hm⟩ := List.exists_mem_of_ne_nil n.rightNeighbors hR
      have hrid : rnode.id ∈ n.rightNeighbors := by
        rw [← hall m hm]
        exact hm
      have hcnt : 0 < rnode.leftNeighbors.count n.id := by
        rw [← hinv.sym n hn rnode hmem]
        exact List.count_pos_iff.mpr hrid
      have hmeml : n.id ∈ rnode.leftNeighbors := List.count_pos_iff.mp hcnt
      exact (hcond n.id (List.mem_append_left _ hmeml) n hn rfl).2
  refine ⟨?_, ?_, ?_, ?_⟩
  · refine hc0.strengthen ?_
    intro p hp hk
    by_cases hL : p.leftNeighbors = []
    · by_cases hR : p.rightNeighbors = []
      · exfalso
        have hp1 := hcsub.subset hp
        obtain ⟨q, hq, rfl⟩ := List.mem_map.mp hp1
        have hqs : q ∈ s.nodes := hmemE q hq
        have hkq : q.content.kind = NodeKind.thing := hk
        have hleq : filterOut rnode.id q.leftNeighbors = [] := hL
        have hreq : filterOut rnode.id q.rightNeighbors = [] := hR
        exact (hciff _ hp1).mp ⟨_, hp, rfl⟩
          ⟨hkq, hleq, hreq, hnames q hqs hkq hleq hreq⟩
      · exact Or.inr hR
    · exact Or.inl hL
  · intro n hn hk
    have hne : n.id ≠ rnode.id := by
      intro hc
      have he : n = rnode := id_inj hinv.nodupIds hn hmem hc
      rw [he, hkind] at hk
      exact absurd hk (by decide)
    have hmemF : (fun n : VNode =>
        { n with leftNeighbors := filterOut rnode.id n.leftNeighbors,
                 rightNeighbors := filterOut rnode.id n.rightNeighbors }) n ∈
        ((s.nodes.eraseIdx i).map (fun n =>
          { n with leftNeighbors := filterOut rnode.id n.leftNeighbors,
                   rightNeighbors := filterOut rnode.id n.rightNeighbors })) :=
      List.mem_map_of_mem _ (hkeepE n hn hne)
    have hiffn := hciff _ hmemF
    constructor
    · intro hex hboth
      exact (hiffn.mp hex) ⟨hk, hboth.1, hboth.2, hnames n hn hk hboth.1 hboth.2⟩
    · intro hnboth
      exact hiffn.mpr (fun hbad => hnboth ⟨hbad.2.1, hbad.2.2.1⟩)
  · intro n hn hk hne
    have hmemF : (fun n : VNode =>
        { n with leftNeighbors := filterOut rnode.id n.leftNeighbors,
                 rightNeighbors := filterOut rnode.id n.rightNeighbors }) n ∈
        ((s.nodes.eraseIdx i).map (fun n =>
          { n with leftNeighbors := filterOut rnode.id n.leftNeighbors,
                   rightNeighbors := filterOut rnode.id n.rightNeighbors })) :=
      List.mem_map_of_mem _ (hkeepE n hn hne)
    have hiffn := hciff _ hmemF
    have hex := hiffn.mpr (fun hbad => absurd (hbad.1.symm.trans hk) (by decide))
    obtain ⟨p, hp, hpid⟩ := hex
    have hp1 := hcsub.subset hp
    have hpF : p = (fun n : VNode =>
        { n with leftNeighbors := filterOut rnode.id n.leftNeighbors,
                 rightNeighbors := filterOut rnode.id n.rightNeighbors }) n :=
      id_inj hInv0s1.nodupIds hp1 hmemF hpid
    refine ⟨p, hp, hpid, ?_⟩
    rw [hpF]
  · intro p hp
    have hp1 := hcsub.subset hp
    obtain ⟨q, hq, rfl⟩ := List.mem_map.mp hp1
    exact ⟨hneE q hq, q, hmemE q hq, rfl, rfl⟩

/-- Every state reachable through completed in-contract operations satisfies
the structural invariant. -/
theorem reachable_inv {game : Game} (hwf : GameWF game) {s : St}
    (h : Reachable game s) : Inv game s := by
  induction h with
  | empty => exact inv_empty game
  | add width sizes recipeName hr hadd ih => exact addRecipe_inv hwf ih hadd
  | remove i rnode hr hget hkind hok ih => exact (remove_spec ih hget hkind hok).1

/-! ## Shared concrete reachability facts for the invariant claims -/

theorem gameAB_wf : GameWF gameAB := by
  unfold GameWF
  decide

theorem reach_stA : Reachable gameAB stA :=
  Reachable.add 800 demoSizes "a" Reachable.empty rfl

theorem reach_stAB : Reachable gameAB stAB :=
  Reachable.add 800 demoSizes "b" reach_stA rfl

/-! ## C3 — adjacency symmetry -/

/-- Claim C3: after every completed operation (any state reachable through
completed in-contract `addRecipe` and `removeRecipeNode` calls), adjacency is
symmetric — node A appears in B's `leftNeighbors` exactly when B appears in
A's `rightNeighbors`. -/
theorem adjacency_symmetric {game : Game} (hwf : GameWF game) {s : St}
    (h : Reachable game s) :
    ∀ a ∈ s.nodes, ∀ b ∈ s.nodes,
      (a.id ∈ b.leftNeighbors ↔ b.id ∈ a.rightNeighbors) := by
  have hinv := reachable_inv hwf h
  intro a ha b hb
  constructor
  · intro hmm
    have hc : 0 < b.leftNeighbors.count a.id := List.count_pos_iff.mpr hmm
    rw [← hinv.sym a ha b hb] at hc
    exact List.count_pos_iff.mp hc
  · intro hmm
    have hc : 0 < a.rightNeighbors.count b.id := List.count_pos_iff.mpr hmm
    rw [hinv.sym a ha b hb] at hc
    exact List.count_pos_iff.mp hc

/-- Concrete instance of `adjacency_symmetric` on the two-recipe demo state
(reached by two completed insertions). -/
theorem adjacency_symmetric_witness :
    GameWF gameAB ∧
    ∀ a ∈ stAB.nodes, ∀ b ∈ stAB.nodes,
      (a.id ∈ b.leftNeighbors ↔ b.id ∈ a.rightNeighbors) :=
  ⟨gameAB_wf, adjacency_symmetric gameAB_wf reach_stAB⟩

/-! ## C4 — at most one visual node per domain entity name and kind -/

/-- Claim C4: in every reachable state there is at most one visual node per
domain entity — two nodes of the same kind carrying the same name are the
same node.  (Per C10 the uniqueness is keyed per kind: the thing index and
the recipe index are separate.) -/
theorem unique_node_per_name {game : Game} (hwf : GameWF game) {s : St}
    (h : Reachable game s) :
    ∀ n1 ∈ s.nodes, ∀ n2 ∈ s.nodes,
      n1.content.kind = n2.content.kind → n1.content.name = n2.content.name →
      n1 = n2 := by
  have hinv := reachable_inv hwf h
  intro n1 h1 n2 h2 hk hnm
  cases hkind : n1.content.kind with
  | thing =>
      have e1 := (hinv.thIdx n1.content.name n1.id).mpr ⟨n1, h1, rfl, hkind, rfl⟩
      have e2 := (hinv.thIdx n1.content.name n2.id).mpr
        ⟨n2, h2, rfl, by rw [← hk]; exact hkind, hnm.symm⟩
      rw [e1] at e2
      exact id_inj hinv.nodupIds h1 h2 (Option.some.inj e2)
  | recipe =>
      have e1 := (hinv.recIdx n1.content.name n1.id).mpr ⟨n1, h1, rfl, hkind, rfl⟩
      have e2 := (hinv.recIdx n1.content.name n2.id).mpr
        ⟨n2, h2, rfl, by rw [← hk]; exact hkind, hnm.symm⟩
      rw [e1] at e2
      exact id_inj hinv.nodupIds h1 h2 (Option.some.inj e2)

/-- Concrete instance of `unique_node_per_name` on the two-recipe demo
state. -/
theorem unique_node_per_name_witness :
    GameWF gameAB ∧
    ∀ n1 ∈ stAB.nodes, ∀ n2 ∈ stAB.nodes,
      n1.content.kind = n2.content.kind → n1.content.name = n2.content.name →
      n1 = n2 :=
  ⟨gameAB_wf, unique_node_per_name gameAB_wf reach_stAB⟩

/-! ## C9 — no dangling adjacency references -/

/-- Claim C9: in every reachable state, every id stored in any node's
`leftNeighbors` or `rightNeighbors` belongs to a node present in the current
sequence. -/
theorem no_dangling_refs {game : Game} (hwf : GameWF game) {s : St}
    (h : Reachable game s) :
    ∀ n ∈ s.nodes, ∀ m ∈ n.leftNeighbors ++ n.rightNeighbors,
      ∃ p ∈ s.nodes, p.id = m :=
  (reachable_inv hwf h).noDangling

/-- Concrete instance of `no_dangling_refs` on the two-recipe demo state. -/
theorem no_dangling_refs_witness :
    GameWF gameAB ∧
    ∀ n ∈ stAB.nodes, ∀ m ∈ n.leftNeighbors ++ n.rightNeighbors,
      ∃ p ∈ stAB.nodes, p.id = m :=
  ⟨gameAB_wf, no_dangling_refs gameAB_wf reach_stAB⟩

/-! ## C5 — the pruning cascade removes exactly the orphaned thing nodes -/

/-- Claim C5: an in-contract completed `removeRecipeNode` (a) keeps a thing
node exactly when it retains an adjacency besides the removed transformation
(its post-unlink lists, `filterOut` of the removed id, are not both empty);
(b) leaves no degree-zero thing node behind; and (c) removes no other
transformation node — every other recipe node survives with its content. -/
theorem removeRecipeNode_prunes_exactly_orphans {game : Game} (hwf : GameWF game)
    {s : St} (h : Reachable game s) {i : Nat} {rnode : VNode} {s2 : St}
    (hget : s.nodes[i]? = some rnode)
    (hkind : rnode.content.kind = NodeKind.recipe)
    (hok : removeRecipeNode game s i = RemoveResult.ok s2) :
    (∀ n ∈ s.nodes, n.content.kind = NodeKind.thing →
      ((∃ p ∈ s2.nodes, p.id = n.id) ↔
        ¬(filterOut rnode.id n.leftNeighbors = [] ∧
          filterOut rnode.id n.rightNeighbors = []))) ∧
    (∀ p ∈ s2.nodes, p.content.kind = NodeKind.thing →
      p.leftNeighbors ≠ [] ∨ p.rightNeighbors ≠ []) ∧
    (∀ n ∈ s.nodes, n.content.kind = NodeKind.recipe → n.id ≠ rnode.id →
      ∃ p ∈ s2.nodes, p.id = n.id ∧ p.content = n.content) := by
  have hinv := reachable_inv hwf h
  obtain ⟨hinv2, hiff, hrec, _⟩ := remove_spec hinv hget hkind hok
  exact ⟨hiff, hinv2.thingDeg, hrec⟩

/-- The recipe-kind node at index 0 of the demo state (recipe `a`). -/
def c5rnode : VNode := (stAB.nodes[0]?).getD (mkRecipeNode 0 recipeA)

/-- The state after the in-contract removal of recipe `a` from the demo
state. -/
def stABr : St := resultState (removeRecipeNode gameAB stAB 0)

/-- Concrete instance of `removeRecipeNode_prunes_exactly_orphans`: removing
recipe `a` from the two-recipe demo state spares thing `x` (still adjacent to
recipe `b`), leaves no isolated thing node, and keeps recipe `b` intact. -/
theorem removeRecipeNode_prunes_exactly_orphans_witness :
    (∀ n ∈ stAB.nodes, n.content.kind = NodeKind.thing →
      ((∃ p ∈ stABr.nodes, p.id = n.id) ↔
        ¬(filterOut c5rnode.id n.leftNeighbors = [] ∧
          filterOut c5rnode.id n.rightNeighbors = []))) ∧
    (∀ p ∈ stABr.nodes, p.content.kind = NodeKind.thing →
      p.leftNeighbors ≠ [] ∨ p.rightNeighbors ≠ []) ∧
    (∀ n ∈ stAB.nodes, n.content.kind = NodeKind.recipe → n.id ≠ c5rnode.id →
      ∃ p ∈ stABr.nodes, p.id = n.id ∧ p.content = n.content) :=
  removeRecipeNode_prunes_exactly_orphans gameAB_wf reach_stAB
    (rfl : stAB.nodes[0]? = some c5rnode)
    (rfl : c5rnode.content.kind = NodeKind.recipe)
    (rfl : removeRecipeNode gameAB stAB 0 = RemoveResult.ok stABr)

/-! ## C8 — the general (neighbor-based) horizontal positioning rule -/

/-- Cutting the positioning loop at an arbitrary element of the index
list. -/
theorem assignPositions_split {width : ℚ} {sizes : Nat → ℚ × ℚ} :
    ∀ (l1 : List Nat) (j : Nat) (l2 : List Nat) (s s2 : St),
    assignPositions width sizes s (l1 ++ j :: l2) = some s2 →
    ∃ sj s3, assignPositions width sizes s l1 = some sj ∧
      positionNode width sizes sj j = some s3 ∧
      assignPositions width sizes s3 l2 = some s2 := by
  intro l1
  induction l1 with
  | nil =>
      intro j l2 s s2 h
      unfold assignPositions at h
      rw [List.nil_append, List.foldlM_cons] at h
      cases hstep : positionNode width sizes s j with
      | none =>
          rw [hstep] at h
          exact absurd h (by simp)
      | some s3 =>
          rw [hstep] at h
          simp only [Option.bind_eq_bind, Option.some_bind] at h
          exact ⟨s, s3, rfl, hstep, h⟩
  | cons a l1b ih =>
      intro j l2 s s2 h
      unfold assignPositions at h
      rw [List.cons_append, List.foldlM_cons] at h
      cases hstep : positionNode width sizes s a with
      | none =>
          rw [hstep] at h
          exact absurd h (by simp)
      | some sa =>
          rw [hstep] at h
          simp only [Option.bind_eq_bind, Option.some_bind] at h
          obtain ⟨sj, s3, h1, h2, h3⟩ := ih j l2 sa s2 h
          refine ⟨sj, s3, ?_, h2, h3⟩
          unfold assignPositions
          rw [List.foldlM_cons, hstep]
          simp only [Option.bind_eq_bind, Option.some_bind]
          exact h1

/-- A successful `positionNode` away from index 0 runs the general rule. -/
theorem positionNode_general {width : ℚ} {sizes : Nat → ℚ × ℚ} {sj : St} {j : Nat}
    {s3 : St} (hj : j ≠ 0) (h : positionNode width sizes sj j = some s3) :
    ∃ node, sj.nodes[j]? = some node ∧ positionGeneral sizes sj j node = some s3 := by
  unfold positionNode at h
  cases hn : sj.nodes[j]? with
  | none =>
      rw [hn] at h
      exact absurd h (by simp)
  | some node =>
      simp only [hn] at h
      rw [if_neg hj] at h
      exact ⟨node, rfl, h⟩

/-- The value a successful `positionGeneral` writes: the assert guarantees a
lower-indexed neighbor on some side, and the new horizontal position is the
three-case neighbor-edge formula of lines 138-151. -/
theorem positionGeneral_spec {sizes : Nat → ℚ × ℚ} {s : St} {i : Nat} {node : VNode}
    {s3 : St} (h : positionGeneral sizes s i node = some s3) :
    ¬(lowerLeftIdxs s.nodes node i = [] ∧ lowerRightIdxs s.nodes node i = []) ∧
    ∃ lefts rightEdges t,
      leftCoordsAt s.nodes (lowerRightIdxs s.nodes node i) = some lefts ∧
      rightEdgesAt sizes s.nodes (lowerLeftIdxs s.nodes node i) = some rightEdges ∧
      s3 = { s with
        nodes := setPosAt s.nodes i
          (if lowerLeftIdxs s.nodes node i = [] then
            listMinQ lefts - (sizes i).1 - 50
          else if lowerRightIdxs s.nodes node i = [] then
            listMaxQ rightEdges + 50
          else (listMinQ lefts + listMaxQ rightEdges) / 2 - (sizes i).1 / 2) t } := by
  unfold positionGeneral at h
  dsimp only at h
  split at h
  · exact absurd h (by simp)
  · rename_i hcond
    split at h
    · rename_i lefts rightEdges hlc hre
      split at h
      · exact absurd h (by simp)
      · rename_i tops htops
        split at h
        · exact absurd h (by simp)
        · rename_i t1 ht1
          split at h
          · exact absurd h (by simp)
          · rename_i t2 ht2
            exact ⟨hcond, lefts, rightEdges, t2, hlc, hre,
              ((Option.some.injEq _ _).mp h).symm⟩
    · exact absurd h (by simp)

/-- Claim C8: during the positioning phase of a completed `addRecipe`, every
node in positioning order other than the root is positioned by the general
rule: at the moment it is positioned (a state agreeing with the final state
on all lower indices), at least one lower-indexed neighbor exists — the
line-137 assert cannot have fired — and its horizontal position is: 50 right
of the rightmost right edge of the lower-indexed left-neighbors when only
those exist; its own width plus 50 left of the leftmost left edge of the
lower-indexed right-neighbors when only those exist; and the horizontal
center between those two edges when both exist. -/
theorem general_positioning_rule {game : Game} {width : ℚ} {sizes : Nat → ℚ × ℚ}
    {s : St} {name : String} {s1 : St} {toPos : List Nat} {s2 : St}
    (htopo : addRecipeTopo game s name = some (s1, toPos))
    (hpos : assignPositions width sizes s1 toPos = some s2) :
    ∀ j ∈ toPos, j ≠ s.nodes.length →
      0 < j ∧
      ∃ sj node s3,
        sj.nodes[j]? = some node ∧
        positionGeneral sizes sj j node = some s3 ∧
        (∀ k, k < j → sj.nodes[k]? = s2.nodes[k]?) ∧
        s2.nodes[j]? = s3.nodes[j]? ∧
        ¬(lowerLeftIdxs sj.nodes node j = [] ∧ lowerRightIdxs sj.nodes node j = []) ∧
        ∃ lefts rightEdges t,
          leftCoordsAt sj.nodes (lowerRightIdxs sj.nodes node j) = some lefts ∧
          rightEdgesAt sizes sj.nodes (lowerLeftIdxs sj.nodes node j) = some rightEdges ∧
          s3.nodes[j]? = some { node with
            left :=
              if lowerLeftIdxs sj.nodes node j = [] then
                listMinQ lefts - (sizes j).1 - 50
              else if lowerRightIdxs sj.nodes node j = [] then
                listMaxQ rightEdges + 50
              else (listMinQ lefts + listMaxQ rightEdges) / 2 - (sizes j).1 / 2,
            top := t } := by
  intro j hjmem hjne
  obtain ⟨⟨rest, hrest⟩, hpw, hbound⟩ := addRecipeTopo_toPos_spec htopo
  have hjrest : j ∈ rest := by
    rw [hrest] at hjmem
    rcases List.mem_cons.mp hjmem with h0 | h1
    · exact absurd h0 hjne
    · exact h1
  have hgt : s.nodes.length < j := by
    rw [hrest] at hpw
    exact List.rel_of_pairwise_cons hpw hjrest
  have hj0 : 0 < j := Nat.lt_of_le_of_lt (Nat.zero_le _) hgt
  obtain ⟨l1, l2, hl12⟩ := List.append_of_mem hjrest
  have htp : toPos = (s.nodes.length :: l1) ++ j :: l2 := by
    rw [hrest, hl12]
    rfl
  rw [htp] at hpos
  obtain ⟨sj, s3, hfold1, hstep, hfold2⟩ := assignPositions_split _ _ _ _ _ hpos
  have hl2gt : ∀ m ∈ l2, j < m := by
    have hsub : List.Sublist (j :: l2) toPos := by
      rw [htp]
      exact List.sublist_append_right _ _
    have hpw2 : (j :: l2).Pairwise (· < ·) := hpw.sublist hsub
    exact fun m hm => List.rel_of_pairwise_cons hpw2 hm
  have hjl2 : j ∉ l2 := fun hmem => absurd (hl2gt j hmem) (lt_irrefl j)
  obtain ⟨node, hnode, hgen⟩ := positionNode_general (by omega) hstep
  obtain ⟨_, _, _, _, hframe2⟩ := assignPositions_frame hfold2
  obtain ⟨hcond, lefts, rightEdges, t, hlc, hre, hs3⟩ := positionGeneral_spec hgen
  refine ⟨hj0, sj, node, s3, hnode, hgen, ?_, hframe2 j hjl2, hcond,
    lefts, rightEdges, t, hlc, hre, ?_⟩
  · intro k hk
    have hknot : k ∉ l2 := fun hmem => absurd (hl2gt k hmem) (by omega)
    rw [hframe2 k hknot, hs3]
    exact (setPosAt_get_ne _ _ _ _ k (by omega)).symm
  · rw [hs3]
    exact setPosAt_get_self _ _ hnode

/-- Concrete instance of `general_positioning_rule`: the insertion of recipe
`b` into the one-recipe demo state positions its new product node (the only
non-root entry of the positioning order) by the neighbor-edge formula. -/
theorem general_positioning_rule_witness :
    (3 ∈ c7bTopoPair.2 ∧ 3 ≠ stA.nodes.length) ∧
    (0 < 3 ∧
      ∃ sj node s3,
        sj.nodes[3]? = some node ∧
        positionGeneral demoSizes sj 3 node = some s3 ∧
        (∀ k, k < 3 → sj.nodes[k]? = stAB.nodes[k]?) ∧
        stAB.nodes[3]? = s3.nodes[3]? ∧
        ¬(lowerLeftIdxs sj.nodes node 3 = [] ∧ lowerRightIdxs sj.nodes node 3 = []) ∧
        ∃ lefts rightEdges t,
          leftCoordsAt sj.nodes (lowerRightIdxs sj.nodes node 3) = some lefts ∧
          rightEdgesAt demoSizes sj.nodes (lowerLeftIdxs sj.nodes node 3) = some rightEdges ∧
          s3.nodes[3]? = some { node with
            left :=
              if lowerLeftIdxs sj.nodes node 3 = [] then
                listMinQ lefts - (demoSizes 3).1 - 50
              else if lowerRightIdxs sj.nodes node 3 = [] then
                listMaxQ rightEdges + 50
              else (listMinQ lefts + listMaxQ rightEdges) / 2 - (demoSizes 3).1 / 2,
            top := t }) :=
  ⟨⟨by decide, by decide⟩,
   general_positioning_rule
     (rfl : addRecipeTopo gameAB stA "b" = some (c7bTopoPair.1, c7bTopoPair.2))
     (rfl : assignPositions 800 demoSizes c7bTopoPair.1 c7bTopoPair.2 = some stAB)
     3 (by decide) (by decide)⟩

end FG
